import Mathlib

/-!
Verification development for the nl2sql backend.

The Python source is shallowly embedded: SQL text is `List Char`, the
database connection is an oracle record (`DBConn`), and every scanning
routine of the source (comment stripping, keyword search, regex
substitution) is reimplemented as an executable Lean function.  Scanning
functions whose recursion is not structural take an explicit fuel
argument (`...Aux fuel s`); the public wrapper instantiates the fuel
with the length of the input, which is always sufficient, so every
definition evaluates by `decide`/`rfl` on concrete inputs.
-/

set_option maxRecDepth 4000

/-! ### Generic character and list-of-character utilities -/

/-- Uppercase a character list (Python `str.upper`, ASCII fragment). -/
def upperL (s : List Char) : List Char := s.map Char.toUpper

/-- Lowercase a character list (Python `str.lower`, ASCII fragment). -/
def lowerL (s : List Char) : List Char := s.map Char.toLower

/-- Whitespace characters removed by Python `str.strip()`. -/
def isPySpace (c : Char) : Bool :=
  c == ' ' || c == '\t' || c == '\n' || c == '\r' || c == '\x0b' || c == '\x0c'

/-- Python `str.strip()` on a character list. -/
def pyStrip (s : List Char) : List Char :=
  ((s.dropWhile isPySpace).reverse.dropWhile isPySpace).reverse

/-- Does `s` start with `pat`? -/
def startsWithSeg : List Char → List Char → Bool
  | [], _ => true
  | _ :: _, [] => false
  | p :: ps, c :: cs => p == c && startsWithSeg ps cs

/-- Does `s` contain `pat` as a contiguous segment (Python `in`)? -/
def containsSeg (pat : List Char) : List Char → Bool
  | [] => startsWithSeg pat []
  | c :: t => startsWithSeg pat (c :: t) || containsSeg pat t

/-- Word character for the purposes of the `\b` regex boundary. -/
def isWordChar (c : Char) : Bool := c.isAlphanum || c == '_'

/-- Does a whole-word occurrence of `kw` start right here, given the
previous character `prev` (regex `\bkw\b`)? -/
def wordAt (kw : List Char) (prev : Option Char) (rest : List Char) : Bool :=
  startsWithSeg kw rest &&
    (match prev with | none => true | some c => !isWordChar c) &&
    (match (rest.drop kw.length).head? with | none => true | some c => !isWordChar c)

/-- Scan helper for `hasWholeWord`. -/
def hasWholeWordAux (kw : List Char) : Option Char → List Char → Bool
  | prev, [] => wordAt kw prev []
  | prev, c :: t => wordAt kw prev (c :: t) || hasWholeWordAux kw (some c) t

/-- Does `kw` occur in `s` as a whole word (regex search `\bkw\b`)? -/
def hasWholeWord (kw s : List Char) : Bool := hasWholeWordAux kw none s

/-- Strip trailing semicolons (Python `str.rstrip(';')`). -/
def rstripSemis (s : List Char) : List Char :=
  (s.reverse.dropWhile (fun c => c == ';')).reverse

/-- Decimal digit character for a value below ten. -/
def digitChar : Nat → Char
  | 0 => '0' | 1 => '1' | 2 => '2' | 3 => '3' | 4 => '4'
  | 5 => '5' | 6 => '6' | 7 => '7' | 8 => '8' | _ => '9'

/-- Fuelled decimal rendering of a natural number. -/
def natDigitsAux : Nat → Nat → List Char
  | 0, _ => []
  | fuel + 1, n =>
    if n < 10 then [digitChar n]
    else natDigitsAux fuel (n / 10) ++ [digitChar (n % 10)]

/-- Decimal rendering of a natural number (Python `str(n)` for `n ≥ 0`). -/
def natDigits (n : Nat) : List Char := natDigitsAux (n + 1) n

/-! ### DatabaseManager: the SQL Safety Gate (`database.py`) -/

/-- Cut a single line at the first `--` comment marker. -/
def cutLine : List Char → List Char
  | [] => []
  | '-' :: '-' :: _ => []
  | c :: t => c :: cutLine t

/-- Remove `-- ...` line comments (regex `--.*$`, MULTILINE): the flag
records whether we are currently skipping the remainder of a line. -/
def remLCAux : Bool → List Char → List Char
  | _, [] => []
  | true, c :: t => if c == '\n' then c :: remLCAux false t else remLCAux true t
  | false, '-' :: '-' :: t => remLCAux true t
  | false, c :: t => c :: remLCAux false t

/-- Remove line comments from SQL text. -/
def removeLineComments (s : List Char) : List Char := remLCAux false s

/-- Find the first `*/` and return the suffix after it. -/
def dropToClose : List Char → Option (List Char)
  | [] => none
  | '*' :: '/' :: t => some t
  | _ :: t => dropToClose t

/-- Fuelled removal of `/* ... */` block comments (regex non-greedy
sub `/\*.*?\*/`, DOTALL: leftmost `/*` paired with the nearest `*/`). -/
def remBCAux : Nat → List Char → List Char
  | 0, s => s
  | fuel + 1, s =>
    match s with
    | [] => []
    | '/' :: '*' :: t =>
      match dropToClose t with
      | some rest => remBCAux fuel rest
      | none => '/' :: '*' :: t
    | c :: t => c :: remBCAux fuel t

/-- Remove block comments from SQL text. -/
def removeBlockComments (s : List Char) : List Char := remBCAux s.length s

/-- The cleaned text used by `is_safe_sql`: comments stripped, then
`strip()`, then `upper()` (lines 28–30 of `database.py`). -/
def cleanSQL (s : List Char) : List Char :=
  upperL (pyStrip (removeBlockComments (removeLineComments s)))

/-- The denylist of `database.py` line 37. -/
def dangerous_keywords : List (List Char) :=
  ["DROP".toList, "DELETE".toList, "INSERT".toList, "UPDATE".toList,
   "ALTER".toList, "CREATE".toList, "TRUNCATE".toList, "REPLACE".toList,
   "MERGE".toList, "EXEC".toList, "EXECUTE".toList, "CALL".toList,
   "DECLARE".toList, "SET".toList, "GRANT".toList, "REVOKE".toList]

/-- `DatabaseManager.is_safe_sql`: comments stripped, trimmed, uppercased;
must start with SELECT or WITH; no denylisted keyword as a whole word. -/
def is_safe_sql (sql : List Char) : Bool :=
  let c := cleanSQL sql
  (startsWithSeg "SELECT".toList c || startsWithSeg "WITH".toList c) &&
    dangerous_keywords.all (fun kw => !hasWholeWord kw c)

/-- `settings.max_query_results` (`config.py` line 21). -/
def max_query_results : Nat := 1000

/-- Is `LIMIT` a substring of the uppercased text (Python
`'LIMIT' in sql.upper()`)? -/
def containsLimitSub (s : List Char) : Bool :=
  containsSeg "LIMIT".toList (upperL s)

/-- Is `ORDER BY` a substring of the uppercased text? -/
def containsOrderBy (s : List Char) : Bool :=
  containsSeg "ORDER BY".toList (upperL s)

/-- Lookahead `(?=;|$)` of the `ORDER BY` substitution regex: succeeds at
end of string, before `;`, and before a newline that ends the string. -/
def lookAheadOk : List Char → Bool
  | [] => true
  | c :: t => c == ';' || (c == '\n' && t.isEmpty)

/-- Lazy extension `.*?` (no DOTALL: must not cross a newline) up to the
first position where `lookAheadOk` holds; returns the consumed part and
the remaining suffix, or `none` when no match is possible. -/
def lazyExt : List Char → Option (List Char × List Char)
  | [] => some ([], [])
  | c :: t =>
    if lookAheadOk (c :: t) then some ([], c :: t)
    else if c == '\n' then none
    else (lazyExt t).map (fun p => (c :: p.1, p.2))

/-- Replacement text ` LIMIT {max_results}` inserted after an
`ORDER BY` clause (`database.py` line 56). -/
def limitInsert : List Char := " LIMIT ".toList ++ natDigits max_query_results

/-- Fuelled scan of `re.sub(r'(ORDER BY.*?)(?=;|$)', r'\1 LIMIT {max}', sql,
IGNORECASE)`: at each position try to match `ORDER BY` case-insensitively
followed by the lazy extension; on a match emit the matched text plus the
insertion and continue after the match, otherwise advance one character. -/
def subOBAux : Nat → List Char → List Char
  | 0, s => s
  | fuel + 1, s =>
    if startsWithSeg "ORDER BY".toList (upperL s) then
      match lazyExt (s.drop 8) with
      | some (consumed, rest) =>
        s.take 8 ++ consumed ++ limitInsert ++ subOBAux fuel rest
      | none =>
        match s with
        | [] => []
        | c :: t => c :: subOBAux fuel t
    else
      match s with
      | [] => []
      | c :: t => c :: subOBAux fuel t

/-- The `ORDER BY` limit-insertion substitution. -/
def subOB (s : List Char) : List Char := subOBAux s.length s

/-- Text appended at the end of a statement without `ORDER BY`
(`database.py` line 61): ` LIMIT {max_results};`. -/
def limitEnd : List Char := " LIMIT ".toList ++ natDigits max_query_results ++ [';']

/-- `DatabaseManager.add_safety_limits` (`database.py` lines 49–63). -/
def add_safety_limits (sql : List Char) : List Char :=
  if containsLimitSub sql then sql
  else if containsOrderBy sql then subOB sql
  else rstripSemis sql ++ limitEnd

/-! ### LIMIT rewriting in `ExecuteSQLQueryTool` (`sql_execution_tools.py` 60–63) -/

/-- The literal six characters `LIMIT␣` of the regex `LIMIT \d+`. -/
def limitTok : List Char := "LIMIT ".toList

/-- Try to match the regex `LIMIT \d+` (IGNORECASE) at the head of `s`:
on success return the matched digit run and the suffix after it. -/
def matchLimit (s : List Char) : Option (List Char × List Char) :=
  if upperL (s.take 6) = limitTok then
    let ds := (s.drop 6).takeWhile Char.isDigit
    if ds.isEmpty then none
    else some (ds, (s.drop 6).dropWhile Char.isDigit)
  else none

/-- Fuelled scan of `re.sub(r'LIMIT \d+', f'LIMIT {limit}', sql,
IGNORECASE)`: every non-overlapping match is replaced by
`LIMIT {m}`, scanning resumes after the match. -/
def rewriteLimitsAux (m : Nat) : Nat → List Char → List Char
  | 0, s => s
  | fuel + 1, s =>
    match matchLimit s with
    | some (_, rest) => limitTok ++ natDigits m ++ rewriteLimitsAux m fuel rest
    | none =>
      match s with
      | [] => []
      | c :: t => c :: rewriteLimitsAux m fuel t

/-- The custom-limit substitution of `ExecuteSQLQueryTool` (line 61). -/
def rewriteLimits (m : Nat) (s : List Char) : List Char :=
  rewriteLimitsAux m s.length s

/-- Does `s` contain, at any position, a `LIMIT \d+` occurrence whose
digit run differs from the decimal rendering of `m`? -/
def hasBadLimit (m : Nat) : List Char → Bool
  | [] => false
  | c :: t =>
    (match matchLimit (c :: t) with
     | some (ds, _) => decide (ds ≠ natDigits m)
     | none => false) || hasBadLimit m t

/-! ### The four free-form-SQL tools (`sql_execution_tools.py`) -/

/-- Result of one tool invocation, reduced to the fields the claims
mention: the success flag and the error text (`ToolResult` of
`base_tool.py` restricted to `success`/`error`). -/
structure MToolResult where
  success : Bool
  error : Option String
  deriving Repr, DecidableEq

/-- A successful result. -/
def MToolResult.good : MToolResult := ⟨true, none⟩

/-- A failed result carrying an error message. -/
def MToolResult.bad (e : String) : MToolResult := ⟨false, some e⟩

/-- Oracle for the database connection: `connect` models
`get_connection` (which may raise), `fetch` models `conn.fetch` and
`fetchval` models `conn.fetchval` together with the pure processing of
the fetched value (plan parsing), which can only fail by raising. -/
structure DBConn (ρ : Type) where
  connect : Except String Unit
  fetch : List Char → Except String (List ρ)
  fetchval : List Char → Except String Unit

/-- The rejection message of the unsafe-SQL branches. -/
def unsafeMsg : String :=
  "SQL query contains unsafe operations. Only SELECT statements are allowed."

/-- The query text actually sent by `ExecuteSQLQueryTool` (lines
58–63): `add_safety_limits`, then — for a custom limit below 1000 —
`re.sub(r'LIMIT \d+', f'LIMIT {limit}', ...)` with the fallback
appending `LIMIT {limit}` when no `LIMIT` substring is present. -/
def limitedQuery (sql : List Char) (limit : Nat) : List Char :=
  if limit < 1000 then
    let r := rewriteLimits limit (add_safety_limits sql)
    if ¬ containsLimitSub r then
      rstripSemis r ++ " LIMIT ".toList ++ natDigits limit ++ [';']
    else r
  else add_safety_limits sql

/-- `ExecuteSQLQueryTool.execute` (lines 46–104): result together with
the list of query texts sent to the database, in order. -/
def executeSQLQuery {ρ : Type} (db : DBConn ρ) (sql : List Char)
    (limit : Nat) (explain_plan : Bool) : MToolResult × List (List Char) :=
  if ¬ is_safe_sql sql then (.bad unsafeMsg, [])
  else
    match db.connect with
    | .error e => (.bad e, [])
    | .ok _ =>
      match db.fetch (limitedQuery sql limit) with
      | .error e => (.bad e, [limitedQuery sql limit])
      | .ok rows =>
        if explain_plan && ¬ rows.isEmpty then
          (.good, [limitedQuery sql limit,
            "EXPLAIN (FORMAT JSON, ANALYZE) ".toList ++ limitedQuery sql limit])
        else (.good, [limitedQuery sql limit])

/-- `ValidateSQLSyntaxTool.execute` (lines 128–206): computes the safety
flag but never rejects; sends `EXPLAIN {sql}` to the database whenever a
connection can be obtained, even for unsafe input, and always returns a
success result (failures are recorded inside the data payload only). -/
def validateSQLSyntax {ρ : Type} (db : DBConn ρ) (sql : List Char) :
    MToolResult × List (List Char) :=
  match db.connect with
  | .error _ => (.good, [])
  | .ok _ => (.good, ["EXPLAIN ".toList ++ sql])

/-- `ExplainQueryPlanTool.execute` (lines 237–318): rejects unsafe SQL,
then sends `EXPLAIN (FORMAT JSON, VERBOSE, BUFFERS[, ANALYZE]) {sql}`
with the raw text, never routed through `add_safety_limits`. -/
def explainQueryPlan {ρ : Type} (db : DBConn ρ) (sql : List Char)
    (analyze : Bool) : MToolResult × List (List Char) :=
  if ¬ is_safe_sql sql then (.bad unsafeMsg, [])
  else
    match db.connect with
    | .error e => (.bad e, [])
    | .ok _ =>
      let q :=
        (if analyze then "EXPLAIN (FORMAT JSON, VERBOSE, BUFFERS, ANALYZE) "
         else "EXPLAIN (FORMAT JSON, VERBOSE, BUFFERS) ").toList ++ sql
      match db.fetchval q with
      | .error e => (.bad e, [q])
      | .ok _ => (.good, [q])

/-- `OptimizeQueryTool.execute` (lines 342–500): never rejects; consults
the database with `EXPLAIN (FORMAT JSON) {sql}` only when the text is
safe, and always returns a success result (analysis errors become
warnings in the payload). -/
def optimizeQuery {ρ : Type} (db : DBConn ρ) (sql : List Char) :
    MToolResult × List (List Char) :=
  match db.connect with
  | .error _ => (.good, [])
  | .ok _ =>
    if is_safe_sql sql then
      (.good, ["EXPLAIN (FORMAT JSON) ".toList ++ sql])
    else (.good, [])

/-! ### ConversationMemory (`memory_store.py`) -/

/-- `deque(maxlen := cap).append x` on a buffer `xs` (oldest first):
the new element goes to the back, and elements are dropped from the
front so that at most `cap` remain. -/
def deque_append {α : Type} (cap : Nat) (xs : List α) (x : α) : List α :=
  (xs ++ [x]).drop (xs.length + 1 - cap)

/-- `ConversationMemory.add_exchange` repeated over a whole sequence of
exchanges, starting from a given buffer. -/
def addAll {α : Type} (cap : Nat) (xs : List α) (es : List α) : List α :=
  es.foldl (deque_append cap) xs

/-- `list(self.exchanges)[-n:]` as used by `get_recent_context`
(note Python's `[-0:]` returns the whole list). -/
def get_recent {α : Type} (n : Nat) (xs : List α) : List α :=
  if n = 0 then xs else xs.drop (xs.length - n)

/-- `ConversationMemory.get_last_exchange`. -/
def get_last_exchange {α : Type} (xs : List α) : Option α := xs.getLast?

/-- A database schema, as far as the cache logic observes it: a mapping
(list of key/value pairs); the empty mapping is falsy in Python. -/
abbrev MSchema : Type := List (String × String)

/-- The schema-cache fields of `ConversationMemory`; times are in whole
seconds. -/
structure SchemaCacheState where
  schema_cache : Option MSchema
  schema_cache_time : Option Nat

/-- `ConversationMemory.cache_schema` at time `now`. -/
def cache_schema (_st : SchemaCacheState) (schema : MSchema) (now : Nat) :
    SchemaCacheState :=
  ⟨some schema, some now⟩

/-- `ConversationMemory.get_cached_schema` at time `now`: Python's
`if self.schema_cache and self.schema_cache_time` is a truthiness test
(an empty dict fails it), and `(datetime.now() - cached).seconds` is the
seconds field of the timedelta, i.e. the elapsed seconds modulo 86400. -/
def get_cached_schema (st : SchemaCacheState) (now : Nat) : Option MSchema :=
  match st.schema_cache, st.schema_cache_time with
  | some sc, some t =>
    if sc ≠ [] ∧ (now - t) % 86400 < 300 then some sc else none
  | _, _ => none

/-! ### The investigation loop (`agentic_client.py`, `autonomous_investigation`) -/

/-- One part of a model response: a structured function call or plain
narrative text. -/
inductive RPart where
  | func (name : String) (params : List (String × String))
  | text (content : String)

/-- One investigation step, reduced to the fields the claims mention
(`AgenticInvestigationStep`): its kind, the tool name and parameters for
`tool_call` steps, and the recorded success flag of the tool result. -/
structure Step where
  step_type : String
  tool_name : Option String
  params : List (String × String)
  result_success : Option Bool
  deriving Repr, DecidableEq

/-- Codepoint-lexicographic order on keys, as Python compares `str`
keys when sorting. -/
def charListLe : List Char → List Char → Bool
  | [], _ => true
  | _ :: _, [] => false
  | a :: as, b :: bs => if a = b then charListLe as bs else decide (a < b)

/-- Insertion sort of parameter pairs by key, modelling
`json.dumps(..., sort_keys=True)`. -/
def insertPair (p : String × String) : List (String × String) → List (String × String)
  | [] => [p]
  | q :: t => if charListLe p.1.toList q.1.toList then p :: q :: t else q :: insertPair p t

/-- Sort a parameter mapping by key. -/
def sortPairs : List (String × String) → List (String × String)
  | [] => []
  | p :: t => insertPair p (sortPairs t)

/-- Canonical serialization of a parameter mapping (sorted-key JSON). -/
def paramSig (ps : List (String × String)) : String :=
  "\x7b" ++ String.intercalate ", "
    ((sortPairs ps).map (fun p => "\"" ++ p.1 ++ "\": \"" ++ p.2 ++ "\"")) ++ "\x7d"

/-- Duplicate-detection signature `f"{tool_name}:{param_str}"`
(`agentic_client.py` line 429). -/
def mkSig (name : String) (ps : List (String × String)) : String :=
  name ++ ":" ++ paramSig ps

/-- The conclusion/analysis keyword classifier (line 500). -/
def isConclusionText (t : String) : Bool :=
  ["conclusion", "summary", "recommendation", "insight"].any
    (fun kw => containsSeg kw.toList (lowerL t.toList))

/-- The orchestrator state observed by the claims: the session step list
`current_investigation`, the client-lifetime counter
`tools_executed_count`, the per-session signature store
`executed_tool_signatures`, the consecutive-duplicate counter, and a
ghost trace of the tool executions actually dispatched to the registry. -/
structure AgentState where
  current_investigation : List Step
  tools_executed_count : Nat
  executed_tool_signatures : List String
  duplicate_call_count : Nat
  executions : List (String × List (String × String))
  deriving Repr, DecidableEq

/-- The state of a freshly constructed `AgenticGeminiClient`. -/
def initAgent : AgentState := ⟨[], 0, [], 0, []⟩

/-- The per-session reset at the top of `autonomous_investigation`
(lines 297–299): the step list and the executed signatures are cleared
(the duplicate counter is a fresh local); `tools_executed_count` is not
reset. -/
def startSession (st : AgentState) : AgentState :=
  { st with current_investigation := [], executed_tool_signatures := [],
            duplicate_call_count := 0 }

/-- Processing of one response part inside the investigation loop
(lines 398–525).  `registry` is the list of registered tool names and
`oracle` gives each dispatched execution's success flag. -/
def processPart (registry : List String)
    (oracle : String → List (String × String) → Bool)
    (st : AgentState) : RPart → AgentState
  | .func name params =>
    if name.toList.all isPySpace then st
    else if name ∉ registry then st
    else
      let sig := mkSig name params
      if sig ∈ st.executed_tool_signatures then
        { st with duplicate_call_count := st.duplicate_call_count + 1 }
      else
        let ok := oracle name params
        { current_investigation := st.current_investigation ++
            [⟨"tool_call", some name, params, some ok⟩],
          tools_executed_count := st.tools_executed_count + (if ok then 1 else 0),
          executed_tool_signatures := sig :: st.executed_tool_signatures,
          duplicate_call_count := 0,
          executions := st.executions ++ [(name, params)] }
  | .text t =>
    { st with current_investigation := st.current_investigation ++
        [⟨if isConclusionText t then "conclusion" else "analysis", none, [], none⟩] }

/-- Fold `processPart` over a list of response parts. -/
def processParts (registry : List String)
    (oracle : String → List (String × String) → Bool)
    (st : AgentState) (parts : List RPart) : AgentState :=
  parts.foldl (processPart registry oracle) st

/-- One full call of `autonomous_investigation`: per-session reset, then
the loop body over the parts the model produced. -/
def runSession (registry : List String)
    (oracle : String → List (String × String) → Bool)
    (st : AgentState) (parts : List RPart) : AgentState :=
  processParts registry oracle (startSession st) parts

/-- Number of `tool_call` steps in a step list. -/
def countToolCalls (steps : List Step) : Nat :=
  (steps.filter (fun s => s.step_type = "tool_call")).length

/-- Number of recorded failed tool executions in a step list. -/
def countFailed (steps : List Step) : Nat :=
  (steps.filter
    (fun s => s.step_type = "tool_call" ∧ s.result_success = some false)).length

/-- Number of recorded successful tool executions in a step list. -/
def countSucceeded (steps : List Step) : Nat :=
  (steps.filter
    (fun s => s.step_type = "tool_call" ∧ s.result_success = some true)).length

/-- The duplicate-detection signatures of the `tool_call` steps, in
order. -/
def toolSigs (steps : List Step) : List String :=
  steps.filterMap
    (fun s => if s.step_type = "tool_call"
              then some (mkSig (s.tool_name.getD "") s.params) else none)

/-- The accounting invariant preserved by every processed part:
`c0` is the value of `tools_executed_count` at session start. -/
def accounted (c0 : Nat) (st : AgentState) : Prop :=
  countToolCalls st.current_investigation + c0 =
    st.tools_executed_count + countFailed st.current_investigation

/-- The duplicate-suppression invariant: the signatures of the recorded
`tool_call` steps are pairwise distinct and all of them are registered
in `executed_tool_signatures`. -/
def sigSound (st : AgentState) : Prop :=
  (toolSigs st.current_investigation).Nodup ∧
  ∀ sig ∈ toolSigs st.current_investigation, sig ∈ st.executed_tool_signatures

/-! ### ToolRegistry dispatch (`tool_registry.py`, `base_tool.py`) -/

/-- A declared tool parameter (`ToolParameter`), restricted to the
fields dispatch looks at.  `default` is the declared default, which may
itself be `none` (Python `None`). -/
structure MToolParameter (V : Type) where
  name : String
  required : Bool
  default : Option V

/-- A registered tool: its name, declared parameters, and its `execute`
logic, which either returns a result or raises (`Except.error`). -/
structure MTool (V : Type) where
  name : String
  params : List (MToolParameter V)
  logic : List (String × Option V) → Except String MToolResult

/-- Look up a supplied keyword argument (`kwargs.get(name)`). -/
def kwGet {V : Type} (kwargs : List (String × V)) (n : String) : Option V :=
  match kwargs.find? (fun p => p.1 = n) with
  | some p => some p.2
  | none => none

/-- `BaseTool.validate_parameters` (lines 98–113): walk the declared
parameters; a missing required parameter raises `ValueError`, a missing
optional parameter is replaced by its declared default. -/
def validate_parameters {V : Type} (ps : List (MToolParameter V))
    (kwargs : List (String × V)) : Except String (List (String × Option V)) :=
  match ps with
  | [] => .ok []
  | p :: rest =>
    match kwGet kwargs p.name with
    | some v =>
      (validate_parameters rest kwargs).map (fun l => (p.name, some v) :: l)
    | none =>
      if p.required then
        .error ("Required parameter '" ++ p.name ++ "' is missing")
      else
        (validate_parameters rest kwargs).map (fun l => (p.name, p.default) :: l)

/-- `BaseTool.safe_execute` (lines 115–145): validation errors and
exceptions from the tool's logic become failed results prefixed with
`Tool {name} failed: `. -/
def safe_execute {V : Type} (t : MTool V) (kwargs : List (String × V)) :
    MToolResult :=
  match validate_parameters t.params kwargs with
  | .error msg => .bad ("Tool " ++ t.name ++ " failed: " ++ msg)
  | .ok validated =>
    match t.logic validated with
    | .error msg => .bad ("Tool " ++ t.name ++ " failed: " ++ msg)
    | .ok r => r

/-- `ToolRegistry.get_tool`. -/
def get_tool {V : Type} (reg : List (MTool V)) (name : String) :
    Option (MTool V) :=
  reg.find? (fun t => t.name = name)

/-- `ToolRegistry.execute_tool` (lines 173–219): an unknown name yields
a failed result listing the valid tools; otherwise dispatch through
`safe_execute`, which never raises. -/
def execute_tool {V : Type} (reg : List (MTool V)) (name : String)
    (kwargs : List (String × V)) : MToolResult :=
  match get_tool reg name with
  | none =>
    .bad ("Tool '" ++ name ++ "' not found. Available tools: " ++
      String.intercalate ", " (reg.map MTool.name))
  | some t => safe_execute t kwargs

/-! ### Rendered claims and concrete objects used to settle them -/

/-- A hard rejection: failed result, nothing sent to the database. -/
def rejectsUnsafe (r : MToolResult × List (List Char)) : Prop :=
  r.1.success = false ∧ r.2 = []

/-- Every query this call sent to the database went through
`add_safety_limits` (it ends with the limited text). -/
def throughAddLimit (sql : List Char) (r : MToolResult × List (List Char)) : Prop :=
  ∀ q ∈ r.2, ∃ pre, q = pre ++ add_safety_limits sql

/-- Claim C1 as stated: every free-form-SQL tool checks `is_safe` first,
rejects unsafe text without sending anything derived from it, and routes
the text through `add_limit` before sending. -/
def claimC1 : Prop :=
  ∀ (db : DBConn Unit) (sql : List Char) (limit : Nat) (ep an : Bool),
    (is_safe_sql sql = false →
      rejectsUnsafe (executeSQLQuery db sql limit ep) ∧
      rejectsUnsafe (validateSQLSyntax db sql) ∧
      rejectsUnsafe (explainQueryPlan db sql an) ∧
      rejectsUnsafe (optimizeQuery db sql)) ∧
    (throughAddLimit sql (executeSQLQuery db sql limit ep) ∧
     throughAddLimit sql (validateSQLSyntax db sql) ∧
     throughAddLimit sql (explainQueryPlan db sql an) ∧
     throughAddLimit sql (optimizeQuery db sql))

/-- Claim C3 as stated: in every session — also the second and later
sessions of the same client — and at every point of the session, the
number of `tool_call` steps equals `tools_executed_count` plus the
number of recorded failed executions. -/
def claimC3 : Prop :=
  ∀ (registry : List String) (oracle : String → List (String × String) → Bool)
    (prev : List (List RPart)) (parts : List RPart) (k : Nat),
    countToolCalls (processParts registry oracle
        (startSession (prev.foldl (runSession registry oracle) initAgent))
        (parts.take k)).current_investigation =
      (processParts registry oracle
        (startSession (prev.foldl (runSession registry oracle) initAgent))
        (parts.take k)).tools_executed_count +
      countFailed (processParts registry oracle
        (startSession (prev.foldl (runSession registry oracle) initAgent))
        (parts.take k)).current_investigation

/-- Claim C8 as stated: with no `LIMIT` present a limit is always
injected — after the `ORDER BY` clause when one exists, at the end of
the statement (replacing a trailing semicolon) otherwise — and a string
with a `LIMIT` is returned unchanged. -/
def claimC8 : Prop :=
  (∀ s : List Char, containsLimitSub s = false →
    containsLimitSub (add_safety_limits s) = true) ∧
  (∀ s : List Char, containsLimitSub s = false → containsOrderBy s = true →
    ∃ a b, add_safety_limits s = a ++ limitInsert ++ b ∧
      containsOrderBy a = true) ∧
  (∀ s : List Char, containsLimitSub s = false → containsOrderBy s = false →
    add_safety_limits s = rstripSemis s ++ limitEnd) ∧
  (∀ s : List Char, containsLimitSub s = true → add_safety_limits s = s)

/-- A database oracle on which every operation succeeds. -/
def dbAllOk : DBConn Unit := ⟨.ok (), fun _ => .ok [()], fun _ => .ok ()⟩

/-- The validated argument mapping produced when no required parameter
is missing: supplied values pass through, missing optional parameters
take their declared defaults. -/
def resolveArgs {V : Type} (ps : List (MToolParameter V))
    (kwargs : List (String × V)) : List (String × Option V) :=
  ps.map (fun p => (p.name,
    match kwGet kwargs p.name with
    | some v => some v
    | none => p.default))

/-- A demonstration tool with one required and one defaulted parameter. -/
def addTool : MTool Nat :=
  ⟨"add", [⟨"x", true, none⟩, ⟨"y", false, some 7⟩], fun _ => .ok ⟨true, none⟩⟩

/-- A demonstration tool whose logic always raises. -/
def boomTool : MTool Nat := ⟨"boom", [], fun _ => .error "boom"⟩

/-! ### General lemmas about the scanning utilities -/

theorem startsWithSeg_append {p x : List Char} (y : List Char)
    (h : startsWithSeg p x = true) : startsWithSeg p (x ++ y) = true := by
  induction p generalizing x with
  | nil => simp [startsWithSeg]
  | cons a ps ih =>
    cases x with
    | nil => simp [startsWithSeg] at h
    | cons c t =>
      simp only [startsWithSeg, Bool.and_eq_true, beq_iff_eq] at h ⊢
      exact ⟨h.1, ih h.2⟩

theorem startsWithSeg_length {p s : List Char}
    (h : startsWithSeg p s = true) : p.length ≤ s.length := by
  induction p generalizing s with
  | nil => simp
  | cons a ps ih =>
    cases s with
    | nil => simp [startsWithSeg] at h
    | cons c t =>
      simp only [startsWithSeg, Bool.and_eq_true] at h
      simpa [List.length_cons] using ih h.2

theorem startsWithSeg_of_append_left {p x : List Char} (y : List Char)
    (hl : p.length ≤ x.length)
    (h : startsWithSeg p (x ++ y) = true) : startsWithSeg p x = true := by
  induction p generalizing x with
  | nil => simp [startsWithSeg]
  | cons a ps ih =>
    cases x with
    | nil => simp at hl
    | cons c t =>
      simp only [List.cons_append, startsWithSeg, Bool.and_eq_true] at h ⊢
      exact ⟨h.1, ih (by simpa using hl) h.2⟩

theorem containsSeg_of_startsWith {p s : List Char}
    (h : startsWithSeg p s = true) : containsSeg p s = true := by
  cases s with
  | nil => simpa [containsSeg] using h
  | cons c t => simp [containsSeg, h]

theorem containsSeg_cons {p t : List Char} (c : Char)
    (h : containsSeg p t = true) : containsSeg p (c :: t) = true := by
  simp [containsSeg, h]

theorem containsSeg_append_right {p y : List Char} (x : List Char)
    (h : containsSeg p y = true) : containsSeg p (x ++ y) = true := by
  induction x with
  | nil => simpa using h
  | cons c t ih => exact containsSeg_cons c ih

theorem lazyExt_append {u a b : List Char}
    (h : lazyExt u = some (a, b)) : a ++ b = u := by
  induction u generalizing a b with
  | nil =>
    simp only [lazyExt, Option.some.injEq, Prod.mk.injEq] at h
    simp [← h.1, ← h.2]
  | cons c t ih =>
    simp only [lazyExt] at h
    split at h
    · simp only [Option.some.injEq, Prod.mk.injEq] at h
      simp [← h.1, ← h.2]
    · split at h
      · exact absurd h (by simp)
      · cases he : lazyExt t with
        | none => rw [he] at h; simp at h
        | some p =>
          rw [he] at h
          simp only [Option.map_some', Option.some.injEq] at h
          cases p with
          | mk a' b' =>
            have := ih (a := a') (b := b') he
            simp only [Prod.mk.injEq] at h
            rw [← h.1, ← h.2]
            simp [← this]

theorem lazyExt_of_noNewline {u : List Char}
    (h : ∀ c ∈ u, c ≠ '\n') : ∃ p, lazyExt u = some p := by
  induction u with
  | nil => exact ⟨([], []), rfl⟩
  | cons c t ih =>
    by_cases hl : lookAheadOk (c :: t) = true
    · exact ⟨([], c :: t), by simp [lazyExt, hl]⟩
    · have hc : c ≠ '\n' := h c (by simp)
      obtain ⟨p, hp⟩ := ih (fun d hd => h d (by simp [hd]))
      refine ⟨(c :: p.1, p.2), ?_⟩
      simp [lazyExt, hl, hp, hc]

/-! ### Conversation memory lemmas -/

theorem deque_append_length {α : Type} (cap : Nat) (xs : List α) (x : α) :
    (deque_append cap xs x).length ≤ cap := by
  simp only [deque_append, List.length_drop, List.length_append, List.length_cons,
    List.length_nil]
  omega

theorem addAll_eq {α : Type} (cap : Nat) (l : List α) :
    ∀ xs : List α, xs.length ≤ cap →
      addAll cap xs l = (xs ++ l).drop (xs.length + l.length - cap) := by
  induction l with
  | nil =>
    intro xs h
    have hz : xs.length - cap = 0 := by omega
    simp [addAll, hz]
  | cons x l' ih =>
    intro xs h
    have hstep : addAll cap xs (x :: l') = addAll cap (deque_append cap xs x) l' := by
      simp [addAll, List.foldl]
    have hd : xs.length + 1 - cap ≤ (xs ++ [x]).length := by
      simp only [List.length_append, List.length_cons, List.length_nil]
      omega
    have hlen : (deque_append cap xs x).length ≤ cap := deque_append_length cap xs x
    rw [hstep, ih _ hlen]
    show ((xs ++ [x]).drop (xs.length + 1 - cap) ++ l').drop _ = _
    rw [← List.drop_append_of_le_length hd, List.drop_drop]
    have hlist : xs ++ [x] ++ l' = xs ++ x :: l' := by simp
    rw [hlist]
    congr 1
    simp only [deque_append, List.length_drop, List.length_append, List.length_cons,
      List.length_nil]
    omega

/-- C6: the conversation memory ring buffer never exceeds its capacity,
`add_exchange` always appends at the back, eviction at capacity drops
exactly the oldest entry, and after `cap + 1` insertions the first
inserted exchange is no longer reachable through the buffer, the
recent-context slice, or the last-exchange accessor. -/
theorem conversation_memory_fifo {α : Type} (cap : Nat) (hc : 0 < cap) :
    (∀ es : List α, (addAll cap [] es).length ≤ cap) ∧
    (∀ (xs : List α) (x : α), xs.length < cap → deque_append cap xs x = xs ++ [x]) ∧
    (∀ (xs : List α) (x : α), xs.length = cap →
      deque_append cap xs x = xs.drop 1 ++ [x]) ∧
    (∀ (e : α) (es : List α), es.length = cap →
      addAll cap [] (e :: es) = es ∧
      (e ∉ es →
        e ∉ addAll cap [] (e :: es) ∧
        get_last_exchange (addAll cap [] (e :: es)) ≠ some e ∧
        ∀ n, e ∉ get_recent n (addAll cap [] (e :: es)))) := by
  refine ⟨?_, ?_, ?_, ?_⟩
  · intro es
    rw [addAll_eq cap es [] (by simp)]
    simp only [List.nil_append, List.length_drop]
    omega
  · intro xs x hlt
    have hz : xs.length + 1 - cap = 0 := by omega
    simp [deque_append, hz]
  · intro xs x heq
    have hone : xs.length + 1 - cap = 1 := by omega
    have h1 : (1 : Nat) ≤ (xs ++ [x]).length := by simp
    rw [deque_append, hone, List.drop_append_of_le_length (by omega)]
  · intro e es hlen
    have hbuf : addAll cap [] (e :: es) = es := by
      rw [addAll_eq cap (e :: es) [] (by simp)]
      simp only [List.nil_append, List.length_cons, List.length_nil, Nat.zero_add]
      have : es.length + 1 - cap = 1 := by omega
      rw [this, List.drop_one, List.tail_cons]
    refine ⟨hbuf, fun hnot => ?_⟩
    rw [hbuf]
    refine ⟨hnot, ?_, ?_⟩
    · intro hlast
      exact hnot (List.mem_of_mem_getLast? hlast)
    · intro n hmem
      by_cases hn : n = 0
      · rw [get_recent, if_pos hn] at hmem
        exact hnot hmem
      · rw [get_recent, if_neg hn] at hmem
        exact hnot (List.drop_subset _ _ hmem)

/-- Witness for C6 at capacity 2 with exchanges 1, 2, 3. -/
theorem conversation_memory_fifo_witness :
    (addAll 2 [] [1, 2, 3]).length ≤ 2 ∧
    deque_append 2 [1] 2 = [1, 2] ∧
    deque_append 2 [1, 2] 3 = [2, 3] ∧
    addAll 2 [] [1, 2, 3] = [2, 3] ∧
    (1 : Nat) ∉ addAll 2 [] [1, 2, 3] := by
  have h := conversation_memory_fifo (α := Nat) 2 (by decide)
  have h4 := h.2.2.2 1 [2, 3] (by decide)
  exact ⟨h.1 [1, 2, 3], h.2.1 [1] 2 (by decide), h.2.2.1 [1, 2] 3 (by decide),
    h4.1, (h4.2 (by decide)).1⟩

/-- C7: `get_cached_schema` serves a snapshot cached a full day earlier
because `timedelta.seconds` wraps at 86400, although the freshness
window is five minutes: at 86400 elapsed seconds the cache is returned
instead of `None`. -/
theorem cached_schema_served_after_one_day :
    get_cached_schema (cache_schema ⟨none, none⟩ [("orders", "t")] 0) 86400
      = some [("orders", "t")] ∧
    get_cached_schema (cache_schema ⟨none, none⟩ [("orders", "t")] 0) 300
      = none := by
  constructor <;> decide

/-! ### C2: the safety gate characterization -/

/-- C2: whenever `is_safe_sql` accepts, the cleaned (comment-stripped,
trimmed, uppercased) text starts with `SELECT` or `WITH` and contains no
denylisted keyword as a whole word; in particular `DROP TABLE x` and
`SELECT * FROM t; DROP TABLE t;` are rejected. -/
theorem is_safe_sql_characterization :
    (∀ s : List Char, is_safe_sql s = true →
      (startsWithSeg "SELECT".toList (cleanSQL s) = true ∨
       startsWithSeg "WITH".toList (cleanSQL s) = true) ∧
      ∀ kw ∈ dangerous_keywords, hasWholeWord kw (cleanSQL s) = false) ∧
    is_safe_sql "DROP TABLE x".toList = false ∧
    is_safe_sql "SELECT * FROM t; DROP TABLE t;".toList = false := by
  refine ⟨?_, by decide, by decide⟩
  intro s h
  unfold is_safe_sql at h
  simp only [Bool.and_eq_true, Bool.or_eq_true, List.all_eq_true,
    Bool.not_eq_true'] at h
  exact ⟨h.1, fun kw hkw => h.2 kw hkw⟩

/-- Witness for C2 at the accepted input `SELECT 1`. -/
theorem is_safe_sql_characterization_witness :
    (startsWithSeg "SELECT".toList (cleanSQL "SELECT 1".toList) = true ∨
     startsWithSeg "WITH".toList (cleanSQL "SELECT 1".toList) = true) ∧
    ∀ kw ∈ dangerous_keywords, hasWholeWord kw (cleanSQL "SELECT 1".toList) = false :=
  is_safe_sql_characterization.1 "SELECT 1".toList (by decide)

/-! ### Lemmas about `add_safety_limits` -/

theorem containsLimitSub_append_insert (x y : List Char) :
    containsLimitSub (x ++ limitInsert ++ y) = true := by
  unfold containsLimitSub upperL
  rw [List.append_assoc, List.map_append, List.map_append]
  apply containsSeg_append_right
  have hins : List.map Char.toUpper limitInsert = " LIMIT 1000".toList := by decide
  rw [hins]
  show containsSeg "LIMIT".toList
    (' ' :: ("LIMIT 1000".toList ++ List.map Char.toUpper y)) = true
  apply containsSeg_cons
  apply containsSeg_of_startsWith
  refine startsWithSeg_append _ ?_
  decide

theorem containsLimitSub_append_end (x : List Char) :
    containsLimitSub (x ++ limitEnd) = true := by
  unfold containsLimitSub upperL
  rw [List.map_append]
  apply containsSeg_append_right
  have hend : List.map Char.toUpper limitEnd = " LIMIT 1000;".toList := by decide
  rw [hend]
  show containsSeg "LIMIT".toList (' ' :: "LIMIT 1000;".toList) = true
  apply containsSeg_cons
  decide

theorem containsLimitSub_cons {t : List Char} (c : Char)
    (h : containsLimitSub t = true) : containsLimitSub (c :: t) = true := by
  unfold containsLimitSub upperL at h ⊢
  simpa using containsSeg_cons c.toUpper (by simpa using h)

theorem subOBAux_nil (fuel : Nat) : subOBAux fuel [] = [] := by
  cases fuel with
  | zero => rfl
  | succ fuel =>
    have hs : startsWithSeg "ORDER BY".toList (upperL []) = false := by decide
    simp only [subOBAux, hs, Bool.false_eq_true, if_false]

theorem subOBAux_succ_pos {s : List Char} (fuel : Nat) {a b : List Char}
    (hs : startsWithSeg "ORDER BY".toList (upperL s) = true)
    (he : lazyExt (s.drop 8) = some (a, b)) :
    subOBAux (fuel + 1) s = s.take 8 ++ a ++ limitInsert ++ subOBAux fuel b := by
  simp only [subOBAux, hs, if_true, he]

theorem subOBAux_succ_pos_none {c : Char} {t : List Char} (fuel : Nat)
    (hs : startsWithSeg "ORDER BY".toList (upperL (c :: t)) = true)
    (he : lazyExt ((c :: t).drop 8) = none) :
    subOBAux (fuel + 1) (c :: t) = c :: subOBAux fuel t := by
  simp only [subOBAux, hs, if_true, he]

theorem subOBAux_succ_neg {c : Char} {t : List Char} (fuel : Nat)
    (hs : ¬ startsWithSeg "ORDER BY".toList (upperL (c :: t)) = true) :
    subOBAux (fuel + 1) (c :: t) = c :: subOBAux fuel t := by
  rw [Bool.not_eq_true] at hs
  simp only [subOBAux, hs, Bool.false_eq_true, if_false]

theorem subOBAux_id_or_limit (fuel : Nat) :
    ∀ s : List Char, subOBAux fuel s = s ∨
      containsLimitSub (subOBAux fuel s) = true := by
  induction fuel with
  | zero => intro s; exact .inl rfl
  | succ fuel ih =>
    intro s
    cases s with
    | nil => rw [subOBAux_nil]; exact .inl rfl
    | cons c t =>
      by_cases hs : startsWithSeg "ORDER BY".toList (upperL (c :: t)) = true
      · cases he : lazyExt ((c :: t).drop 8) with
        | some p =>
          obtain ⟨a, b⟩ := p
          rw [subOBAux_succ_pos fuel hs he]
          right
          have hassoc : (c :: t).take 8 ++ a ++ limitInsert ++ subOBAux fuel b
              = ((c :: t).take 8 ++ a) ++ limitInsert ++ subOBAux fuel b := by
            simp [List.append_assoc]
          rw [hassoc]
          exact containsLimitSub_append_insert _ _
        | none =>
          rw [subOBAux_succ_pos_none fuel hs he]
          rcases ih t with h1 | h1
          · exact .inl (by rw [h1])
          · exact .inr (containsLimitSub_cons c h1)
      · rw [subOBAux_succ_neg fuel hs]
        rcases ih t with h1 | h1
        · exact .inl (by rw [h1])
        · exact .inr (containsLimitSub_cons c h1)

theorem subOB_id_or_limit (s : List Char) :
    subOB s = s ∨ containsLimitSub (subOB s) = true :=
  subOBAux_id_or_limit s.length s

/-- C9: `add_safety_limits` is idempotent: a second application returns
its argument unchanged, and in particular text already containing a
`LIMIT` is returned unchanged by the first application. -/
theorem add_safety_limits_idempotent (s : List Char) :
    add_safety_limits (add_safety_limits s) = add_safety_limits s := by
  by_cases h1 : containsLimitSub s = true
  · simp [add_safety_limits, h1]
  · by_cases h2 : containsOrderBy s = true
    · have hout : add_safety_limits s = subOB s := by
        simp [add_safety_limits, h1, h2]
      rcases subOB_id_or_limit s with hid | hlim
      · rw [hout, hid]
        simp [add_safety_limits, h1, h2, hid]
      · rw [hout]
        simp [add_safety_limits, hlim]
    · have hout : add_safety_limits s = rstripSemis s ++ limitEnd := by
        simp [add_safety_limits, h1, h2]
      rw [hout]
      simp [add_safety_limits, containsLimitSub_append_end]

/-! ### C8: limit injection -/

theorem subOBAux_insert_match : ∀ fuel (s : List Char), s.length ≤ fuel →
    (∃ u v, s = u ++ v ∧ startsWithSeg "ORDER BY".toList (upperL v) = true ∧
      ∃ p, lazyExt (v.drop 8) = some p) →
    ∃ a b, subOBAux fuel s = a ++ limitInsert ++ b ∧
      containsSeg "ORDER BY".toList (upperL a) = true := by
  intro fuel
  induction fuel with
  | zero =>
    intro s hlen hmatch
    have hnil : s = [] := List.eq_nil_of_length_eq_zero (by omega)
    subst hnil
    obtain ⟨u, v, hsv, hsw, -⟩ := hmatch
    have hv : v = [] := (List.append_eq_nil.mp hsv.symm).2
    rw [hv] at hsw
    exact absurd hsw (by decide)
  | succ fuel ih =>
    intro s hlen hmatch
    cases s with
    | nil =>
      obtain ⟨u, v, hsv, hsw, -⟩ := hmatch
      have hv : v = [] := (List.append_eq_nil.mp hsv.symm).2
      rw [hv] at hsw
      exact absurd hsw (by decide)
    | cons c t =>
      by_cases hs : startsWithSeg "ORDER BY".toList (upperL (c :: t)) = true
      · cases he : lazyExt ((c :: t).drop 8) with
        | some p =>
          obtain ⟨a0, b0⟩ := p
          rw [subOBAux_succ_pos fuel hs he]
          refine ⟨(c :: t).take 8 ++ a0, subOBAux fuel b0, by simp [List.append_assoc], ?_⟩
          have hsplit : upperL (c :: t) =
              upperL ((c :: t).take 8) ++ upperL ((c :: t).drop 8) := by
            unfold upperL
            rw [← List.map_append, List.take_append_drop]
          have hlen8 : (8 : Nat) ≤ (c :: t).length := by
            have := startsWithSeg_length hs
            simpa [upperL] using this
          have h8len : ("ORDER BY".toList).length ≤ (upperL ((c :: t).take 8)).length := by
            simp only [upperL, List.length_map, List.length_take]
            exact Nat.le_min.mpr ⟨by decide, by simpa using hlen8⟩
          have hsw8 : startsWithSeg "ORDER BY".toList (upperL ((c :: t).take 8)) = true := by
            refine startsWithSeg_of_append_left (upperL ((c :: t).drop 8)) h8len ?_
            rw [← hsplit]
            exact hs
          apply containsSeg_of_startsWith
          unfold upperL
          rw [List.map_append]
          exact startsWithSeg_append _ hsw8
        | none =>
          obtain ⟨u, v, hsv, hsw, hlz⟩ := hmatch
          cases u with
          | nil =>
            simp only [List.nil_append] at hsv
            obtain ⟨p0, hp0⟩ := hlz
            rw [← hsv] at hp0
            rw [he] at hp0
            exact absurd hp0 (by simp)
          | cons uc u' =>
            rw [List.cons_append, List.cons.injEq] at hsv
            rw [subOBAux_succ_pos_none fuel hs he]
            have hlt : t.length ≤ fuel := by
              simp only [List.length_cons] at hlen
              omega
            obtain ⟨a, b, hab, ha⟩ := ih t hlt ⟨u', v, hsv.2, hsw, hlz⟩
            refine ⟨c :: a, b, by rw [hab]; simp, ?_⟩
            unfold upperL
            rw [List.map_cons]
            exact containsSeg_cons c.toUpper (by simpa [upperL] using ha)
      · obtain ⟨u, v, hsv, hsw, hlz⟩ := hmatch
        cases u with
        | nil =>
          simp only [List.nil_append] at hsv
          rw [← hsv] at hsw
          exact absurd hsw hs
        | cons uc u' =>
          rw [List.cons_append, List.cons.injEq] at hsv
          rw [subOBAux_succ_neg fuel hs]
          have hlt : t.length ≤ fuel := by
            simp only [List.length_cons] at hlen
            omega
          obtain ⟨a, b, hab, ha⟩ := ih t hlt ⟨u', v, hsv.2, hsw, hlz⟩
          refine ⟨c :: a, b, by rw [hab]; simp, ?_⟩
          unfold upperL
          rw [List.map_cons]
          exact containsSeg_cons c.toUpper (by simpa [upperL] using ha)

/-- C8 counterexample: `SELECT a FROM t ORDER BY a\nB` contains no
`LIMIT` substring, yet `add_safety_limits` returns it unchanged — the
regex lookahead cannot cross the interior newline, so no limit clause is
injected at all. -/
theorem add_safety_limits_counterexample : ¬ claimC8 := by
  intro h
  have h1 := h.1 "SELECT a FROM t ORDER BY a\nB".toList (by decide)
  exact absurd h1 (by decide)

/-- C8 (amended): text with a `LIMIT` substring is returned unchanged;
with no `LIMIT` and no `ORDER BY` the limit is appended at the end,
replacing trailing semicolons; with no `LIMIT`, a `LIMIT` is injected
after `ORDER BY` text whenever some `ORDER BY` occurrence's clause
reaches a semicolon or the end of the string without an intervening
newline (the regex's lazy extension succeeds there); when no occurrence
does, the text can be returned without any limit (see the
counterexample). -/
theorem add_safety_limits_amended (s : List Char) :
    (containsLimitSub s = true → add_safety_limits s = s) ∧
    (containsLimitSub s = false → containsOrderBy s = false →
      add_safety_limits s = rstripSemis s ++ limitEnd) ∧
    (containsLimitSub s = false →
      (∃ u v, s = u ++ v ∧ startsWithSeg "ORDER BY".toList (upperL v) = true ∧
        ∃ p, lazyExt (v.drop 8) = some p) →
      ∃ a b, add_safety_limits s = a ++ limitInsert ++ b ∧
        containsOrderBy a = true) := by
  refine ⟨fun h1 => by simp [add_safety_limits, h1],
          fun h1 h2 => by simp [add_safety_limits, h1, h2],
          fun h1 hmatch => ?_⟩
  have h2 : containsOrderBy s = true := by
    obtain ⟨u, v, hsv, hsw, -⟩ := hmatch
    unfold containsOrderBy upperL
    rw [hsv, List.map_append]
    exact containsSeg_append_right _ (containsSeg_of_startsWith hsw)
  have hout : add_safety_limits s = subOB s := by
    simp [add_safety_limits, h1, h2]
  rw [hout]
  exact subOBAux_insert_match s.length s (Nat.le_refl _) hmatch

/-- Witness for C8 (amended): the unchanged and append branches, and the
injection branch both for an `ORDER BY` after a newline and for an
`ORDER BY` clause closed by a semicolon before a newline. -/
theorem add_safety_limits_amended_witness :
    add_safety_limits "SELECT x LIMIT 5".toList = "SELECT x LIMIT 5".toList ∧
    add_safety_limits "SELECT 1;".toList = rstripSemis "SELECT 1;".toList ++ limitEnd ∧
    (∃ a b, add_safety_limits "SELECT a FROM t\nORDER BY a".toList
        = a ++ limitInsert ++ b ∧ containsOrderBy a = true) ∧
    (∃ a b, add_safety_limits "SELECT a FROM t ORDER BY a;\nX".toList
        = a ++ limitInsert ++ b ∧ containsOrderBy a = true) :=
  ⟨(add_safety_limits_amended _).1 (by decide),
   (add_safety_limits_amended _).2.1 (by decide) (by decide),
   (add_safety_limits_amended _).2.2 (by decide)
     ⟨"SELECT a FROM t\n".toList, "ORDER BY a".toList, by decide, by decide,
      ⟨(" a".toList, []), by decide⟩⟩,
   (add_safety_limits_amended _).2.2 (by decide)
     ⟨"SELECT a FROM t ".toList, "ORDER BY a;\nX".toList, by decide, by decide,
      ⟨(" a".toList, ";\nX".toList), by decide⟩⟩⟩

/-! ### C3 and C4: the investigation loop invariants -/

theorem countToolCalls_append (l1 l2 : List Step) :
    countToolCalls (l1 ++ l2) = countToolCalls l1 + countToolCalls l2 := by
  simp [countToolCalls, List.filter_append]

theorem countFailed_append (l1 l2 : List Step) :
    countFailed (l1 ++ l2) = countFailed l1 + countFailed l2 := by
  simp [countFailed, List.filter_append]

theorem toolSigs_append (l1 l2 : List Step) :
    toolSigs (l1 ++ l2) = toolSigs l1 ++ toolSigs l2 := by
  simp [toolSigs]

theorem processPart_skip_blank (registry : List String)
    (oracle : String → List (String × String) → Bool) (st : AgentState)
    {name : String} (params : List (String × String))
    (h1 : name.toList.all isPySpace = true) :
    processPart registry oracle st (.func name params) = st := by
  simp only [processPart]
  rw [if_pos h1]

theorem processPart_skip_unknown (registry : List String)
    (oracle : String → List (String × String) → Bool) (st : AgentState)
    {name : String} (params : List (String × String))
    (h1 : ¬ name.toList.all isPySpace = true) (h2 : name ∉ registry) :
    processPart registry oracle st (.func name params) = st := by
  simp only [processPart]
  rw [if_neg h1, if_pos h2]

theorem processPart_skip_dup (registry : List String)
    (oracle : String → List (String × String) → Bool) (st : AgentState)
    {name : String} {params : List (String × String)}
    (h1 : ¬ name.toList.all isPySpace = true) (h2 : name ∈ registry)
    (h3 : mkSig name params ∈ st.executed_tool_signatures) :
    processPart registry oracle st (.func name params)
      = { st with duplicate_call_count := st.duplicate_call_count + 1 } := by
  simp only [processPart]
  rw [if_neg h1, if_neg (by simpa using h2), if_pos h3]

theorem processPart_exec (registry : List String)
    (oracle : String → List (String × String) → Bool) (st : AgentState)
    {name : String} {params : List (String × String)}
    (h1 : ¬ name.toList.all isPySpace = true) (h2 : name ∈ registry)
    (h3 : mkSig name params ∉ st.executed_tool_signatures) :
    processPart registry oracle st (.func name params)
      = { current_investigation := st.current_investigation ++
            [⟨"tool_call", some name, params, some (oracle name params)⟩],
          tools_executed_count := st.tools_executed_count +
            (if oracle name params then 1 else 0),
          executed_tool_signatures := mkSig name params :: st.executed_tool_signatures,
          duplicate_call_count := 0,
          executions := st.executions ++ [(name, params)] } := by
  simp only [processPart]
  rw [if_neg h1, if_neg (by simpa using h2), if_neg h3]

theorem processPart_text (registry : List String)
    (oracle : String → List (String × String) → Bool) (st : AgentState)
    (t : String) :
    processPart registry oracle st (.text t)
      = { st with current_investigation := st.current_investigation ++
            [⟨if isConclusionText t then "conclusion" else "analysis",
              none, [], none⟩] } := by
  simp only [processPart]

theorem countToolCalls_tool_singleton (n : Option String)
    (p : List (String × String)) (r : Option Bool) :
    countToolCalls [⟨"tool_call", n, p, r⟩] = 1 := by
  simp [countToolCalls]

theorem countFailed_tool_singleton (n : Option String)
    (p : List (String × String)) (b : Bool) :
    countFailed [⟨"tool_call", n, p, some b⟩] = if b then 0 else 1 := by
  cases b <;> simp [countFailed]

theorem countToolCalls_nontool_singleton (ty : String) (hty : ty ≠ "tool_call")
    (n : Option String) (p : List (String × String)) (r : Option Bool) :
    countToolCalls [⟨ty, n, p, r⟩] = 0 := by
  simp [countToolCalls, hty]

theorem countFailed_nontool_singleton (ty : String) (hty : ty ≠ "tool_call")
    (n : Option String) (p : List (String × String)) (r : Option Bool) :
    countFailed [⟨ty, n, p, r⟩] = 0 := by
  simp [countFailed, hty]

theorem processPart_accounted (registry : List String)
    (oracle : String → List (String × String) → Bool) (c0 : Nat)
    (st : AgentState) (p : RPart) (h : accounted c0 st) :
    accounted c0 (processPart registry oracle st p) := by
  cases p with
  | text t =>
    rw [processPart_text]
    unfold accounted at h ⊢
    dsimp only
    rw [countToolCalls_append, countFailed_append]
    have hty : (if isConclusionText t then "conclusion" else "analysis") ≠ "tool_call" := by
      by_cases hc : isConclusionText t = true <;> simp [hc]
    rw [countToolCalls_nontool_singleton _ hty, countFailed_nontool_singleton _ hty]
    omega
  | func name params =>
    by_cases h1 : name.toList.all isPySpace = true
    · rwa [processPart_skip_blank registry oracle st params h1]
    · by_cases h2 : name ∈ registry
      · by_cases h3 : mkSig name params ∈ st.executed_tool_signatures
        · rwa [processPart_skip_dup registry oracle st h1 h2 h3]
        · rw [processPart_exec registry oracle st h1 h2 h3]
          unfold accounted at h ⊢
          dsimp only
          rw [countToolCalls_append, countFailed_append,
            countToolCalls_tool_singleton, countFailed_tool_singleton]
          cases hok : oracle name params <;> simp [hok] <;> omega
      · rwa [processPart_skip_unknown registry oracle st params h1 h2]

theorem processParts_accounted (registry : List String)
    (oracle : String → List (String × String) → Bool) (c0 : Nat) :
    ∀ (parts : List RPart) (st : AgentState), accounted c0 st →
      accounted c0 (processParts registry oracle st parts) := by
  intro parts
  induction parts with
  | nil => intro st h; exact h
  | cons p rest ih =>
    intro st h
    exact ih _ (processPart_accounted registry oracle c0 st p h)

/-- C3 (amended): within any one session — including later sessions of
the same client, whose `tools_executed_count` is not reset — and at
every point of the session (the part list is arbitrary, so every prefix
is covered), the number of `tool_call` steps plus the session-start
value of `tools_executed_count` equals the current value of
`tools_executed_count` plus the number of recorded failed executions.
For a fresh client the session-start value is zero and this is exactly
the equality the claim states. -/
theorem session_tool_call_accounting (registry : List String)
    (oracle : String → List (String × String) → Bool)
    (st0 : AgentState) (parts : List RPart) :
    countToolCalls (processParts registry oracle (startSession st0)
        parts).current_investigation + st0.tools_executed_count =
      (processParts registry oracle (startSession st0)
        parts).tools_executed_count +
      countFailed (processParts registry oracle (startSession st0)
        parts).current_investigation := by
  have h0 : accounted st0.tools_executed_count (startSession st0) := by
    simp [accounted, startSession, countToolCalls, countFailed]
  exact processParts_accounted registry oracle st0.tools_executed_count
    parts (startSession st0) h0

/-- C3 counterexample: a client whose first session executed one
successful tool call starts its second session with
`tools_executed_count = 1`; after one successful call in the second
session the step list holds one `tool_call` step and no failures while
`tools_executed_count` is `2`, so the stated equality fails. -/
theorem session_accounting_counterexample : ¬ claimC3 := by
  intro h
  have h1 := h ["t"] (fun _ _ => true) [[.func "t" []]] [.func "t" []] 1
  exact absurd h1 (by decide)

theorem toolSigs_tool_singleton (name : String) (p : List (String × String))
    (r : Option Bool) :
    toolSigs [⟨"tool_call", some name, p, r⟩] = [mkSig name p] := by
  simp [toolSigs]

theorem toolSigs_nontool_singleton (ty : String) (hty : ty ≠ "tool_call")
    (n : Option String) (p : List (String × String)) (r : Option Bool) :
    toolSigs [⟨ty, n, p, r⟩] = [] := by
  simp [toolSigs, hty]

theorem processPart_sigSound (registry : List String)
    (oracle : String → List (String × String) → Bool)
    (st : AgentState) (p : RPart) (h : sigSound st) :
    sigSound (processPart registry oracle st p) := by
  cases p with
  | text t =>
    rw [processPart_text]
    unfold sigSound at h ⊢
    dsimp only
    have hty : (if isConclusionText t then "conclusion" else "analysis") ≠ "tool_call" := by
      by_cases hc : isConclusionText t = true <;> simp [hc]
    rw [toolSigs_append, toolSigs_nontool_singleton _ hty]
    simpa using h
  | func name params =>
    by_cases h1 : name.toList.all isPySpace = true
    · rwa [processPart_skip_blank registry oracle st params h1]
    · by_cases h2 : name ∈ registry
      · by_cases h3 : mkSig name params ∈ st.executed_tool_signatures
        · rw [processPart_skip_dup registry oracle st h1 h2 h3]
          exact h
        · rw [processPart_exec registry oracle st h1 h2 h3]
          unfold sigSound at h ⊢
          dsimp only
          rw [toolSigs_append, toolSigs_tool_singleton]
          constructor
          · rw [List.nodup_append]
            refine ⟨h.1, List.nodup_singleton _, ?_⟩
            intro sig hsig hmem
            have : sig = mkSig name params := by simpa using hmem
            exact h3 (this ▸ h.2 sig hsig)
          · intro sig hsig
            rcases List.mem_append.mp hsig with hl | hr
            · exact List.mem_cons_of_mem _ (h.2 sig hl)
            · simp only [List.mem_singleton] at hr
              exact hr ▸ List.mem_cons_self _ _
      · rwa [processPart_skip_unknown registry oracle st params h1 h2]

theorem processParts_sigSound (registry : List String)
    (oracle : String → List (String × String) → Bool) :
    ∀ (parts : List RPart) (st : AgentState), sigSound st →
      sigSound (processParts registry oracle st parts) := by
  intro parts
  induction parts with
  | nil => intro st h; exact h
  | cons p rest ih =>
    intro st h
    exact ih _ (processPart_sigSound registry oracle st p h)

/-- C4: within a session no two `tool_call` steps share a
duplicate-detection signature (tool name plus sorted-key serialization
of the parameters) — the part list is arbitrary, so the property holds
at every point — and a requested call whose signature was already
executed leaves the step list and the dispatched-execution trace
unchanged: it is neither executed nor recorded. -/
theorem no_duplicate_tool_call_signatures (registry : List String)
    (oracle : String → List (String × String) → Bool)
    (st0 : AgentState) (parts : List RPart) :
    (toolSigs (processParts registry oracle (startSession st0)
        parts).current_investigation).Nodup ∧
    (∀ (st : AgentState) (name : String) (params : List (String × String)),
      mkSig name params ∈ st.executed_tool_signatures →
      (processPart registry oracle st (.func name params)).current_investigation
          = st.current_investigation ∧
      (processPart registry oracle st (.func name params)).executions
          = st.executions) := by
  constructor
  · have h0 : sigSound (startSession st0) := by
      simp [sigSound, startSession, toolSigs]
    exact (processParts_sigSound registry oracle parts (startSession st0) h0).1
  · intro st name params hmem
    by_cases h1 : name.toList.all isPySpace = true
    · rw [processPart_skip_blank registry oracle st params h1]
      exact ⟨rfl, rfl⟩
    · by_cases h2 : name ∈ registry
      · rw [processPart_skip_dup registry oracle st h1 h2 hmem]
        exact ⟨rfl, rfl⟩
      · rw [processPart_skip_unknown registry oracle st params h1 h2]
        exact ⟨rfl, rfl⟩

/-- Witness for C4: two identical calls to tool `t`; the recorded
signatures are duplicate-free, and a call whose signature is already
registered changes neither the step list nor the execution trace. -/
theorem no_duplicate_tool_call_signatures_witness :
    (toolSigs (processParts ["t"] (fun _ _ => true) (startSession initAgent)
        [.func "t" [], .func "t" []]).current_investigation).Nodup ∧
    (processPart ["t"] (fun _ _ => true) ⟨[], 0, [mkSig "t" []], 0, []⟩
        (.func "t" [])).current_investigation = [] ∧
    (processPart ["t"] (fun _ _ => true) ⟨[], 0, [mkSig "t" []], 0, []⟩
        (.func "t" [])).executions = [] := by
  have h := no_duplicate_tool_call_signatures ["t"] (fun _ _ => true)
    initAgent [.func "t" [], .func "t" []]
  have h2 := h.2 ⟨[], 0, [mkSig "t" []], 0, []⟩ "t" [] (by decide)
  exact ⟨h.1, h2.1, h2.2⟩

/-! ### C5: the tool-dispatch contract -/

theorem validate_parameters_error {V : Type} (ps : List (MToolParameter V))
    (kwargs : List (String × V)) :
    ∀ p ∈ ps, p.required = true → kwGet kwargs p.name = none →
      ∃ msg, validate_parameters ps kwargs = .error msg := by
  induction ps with
  | nil => intro p hp; exact absurd hp (List.not_mem_nil p)
  | cons q rest ih =>
    intro p hp hreq hnone
    rcases List.mem_cons.mp hp with heq | hmem
    · subst heq
      refine ⟨"Required parameter '" ++ p.name ++ "' is missing", ?_⟩
      simp [validate_parameters, hnone, hreq]
    · cases hq : kwGet kwargs q.name with
      | some v =>
        obtain ⟨msg, hmsg⟩ := ih p hmem hreq hnone
        exact ⟨msg, by simp [validate_parameters, hq, hmsg, Except.map]⟩
      | none =>
        by_cases hqreq : q.required = true
        · exact ⟨"Required parameter '" ++ q.name ++ "' is missing",
            by simp [validate_parameters, hq, hqreq]⟩
        · obtain ⟨msg, hmsg⟩ := ih p hmem hreq hnone
          refine ⟨msg, ?_⟩
          simp [validate_parameters, hq, hqreq, hmsg, Except.map]

theorem validate_parameters_ok {V : Type} (ps : List (MToolParameter V))
    (kwargs : List (String × V))
    (h : ∀ p ∈ ps, p.required = true → kwGet kwargs p.name ≠ none) :
    validate_parameters ps kwargs = .ok (resolveArgs ps kwargs) := by
  induction ps with
  | nil => rfl
  | cons q rest ih =>
    have hrest := ih (fun p hp => h p (List.mem_cons_of_mem _ hp))
    cases hq : kwGet kwargs q.name with
    | some v =>
      simp [validate_parameters, hq, hrest, resolveArgs, Except.map]
    | none =>
      have hqreq : q.required = false := by
        cases hr : q.required with
        | true => exact absurd hq (h q (List.mem_cons_self _ _) hr)
        | false => rfl
      simp [validate_parameters, hq, hqreq, hrest, resolveArgs, Except.map]

/-- C5: `execute_tool` never raises — it is a total function into
results: an unknown name yields a failed result naming the tool and
listing the valid names; a missing declared required parameter yields a
failure result; when no required parameter is missing the tool's logic
receives the validated mapping with declared defaults substituted for
missing optional parameters; a raising logic yields a failed result
carrying the exception's message; a returning logic's result is passed
through. -/
theorem execute_tool_contract {V : Type} (reg : List (MTool V))
    (name : String) (kwargs : List (String × V)) :
    (get_tool reg name = none →
      execute_tool reg name kwargs =
        .bad ("Tool '" ++ name ++ "' not found. Available tools: " ++
          String.intercalate ", " (reg.map MTool.name))) ∧
    (∀ t, get_tool reg name = some t →
      (∀ p ∈ t.params, p.required = true → kwGet kwargs p.name = none →
        (execute_tool reg name kwargs).success = false) ∧
      ((∀ p ∈ t.params, p.required = true → kwGet kwargs p.name ≠ none) →
        validate_parameters t.params kwargs = .ok (resolveArgs t.params kwargs) ∧
        (∀ msg, t.logic (resolveArgs t.params kwargs) = .error msg →
          (execute_tool reg name kwargs).success = false ∧
          (execute_tool reg name kwargs).error =
            some ("Tool " ++ t.name ++ " failed: " ++ msg)) ∧
        (∀ r, t.logic (resolveArgs t.params kwargs) = .ok r →
          execute_tool reg name kwargs = r))) := by
  constructor
  · intro hnone
    simp [execute_tool, hnone]
  · intro t ht
    constructor
    · intro p hp hreq hnone
      obtain ⟨msg, hmsg⟩ := validate_parameters_error t.params kwargs p hp hreq hnone
      simp [execute_tool, ht, safe_execute, hmsg, MToolResult.bad]
    · intro hall
      have hv := validate_parameters_ok t.params kwargs hall
      refine ⟨hv, ?_, ?_⟩
      · intro msg hmsg
        constructor <;>
          simp [execute_tool, ht, safe_execute, hv, hmsg, MToolResult.bad]
      · intro r hr
        simp [execute_tool, ht, safe_execute, hv, hr]

/-- Witness for C5 with the demonstration tools: unknown-name failure,
missing-required failure, default substitution with pass-through of the
logic's result, and the raising-logic failure message. -/
theorem execute_tool_contract_witness :
    execute_tool [addTool] "zzz" ([] : List (String × Nat)) =
      .bad ("Tool 'zzz' not found. Available tools: " ++
        String.intercalate ", " ([addTool].map MTool.name)) ∧
    (execute_tool [addTool] "add" ([] : List (String × Nat))).success = false ∧
    validate_parameters addTool.params [("x", 5)] =
      .ok [("x", some 5), ("y", some 7)] ∧
    execute_tool [addTool] "add" [("x", 5)] = ⟨true, none⟩ ∧
    (execute_tool [boomTool] "boom" ([] : List (String × Nat))).error =
      some "Tool boom failed: boom" := by
  have hadd := (execute_tool_contract [addTool] "add" [("x", 5)]).2 addTool rfl
  have hmiss := (execute_tool_contract [addTool] "add"
    ([] : List (String × Nat))).2 addTool rfl
  have hboom := (execute_tool_contract [boomTool] "boom"
    ([] : List (String × Nat))).2 boomTool rfl
  refine ⟨(execute_tool_contract [addTool] "zzz" []).1 rfl,
    hmiss.1 ⟨"x", true, none⟩ (by simp [addTool]) rfl rfl, ?_, ?_, ?_⟩
  · have := (hadd.2 (by decide)).1
    simpa using this
  · exact (hadd.2 (by decide)).2.2 ⟨true, none⟩ rfl
  · exact ((hboom.2 (by decide)).2.1 "boom" rfl).2

/-! ### C1: gating of the free-form-SQL tools -/

/-- C1 counterexample: on `DROP TABLE x` the claim demands that every
tool reject with a failure and send nothing, but `validate_sql_syntax`
returns a success result and sends `EXPLAIN DROP TABLE x` to the
database. -/
theorem sql_tool_gating_counterexample : ¬ claimC1 := by
  intro h
  have h1 := (h dbAllOk "DROP TABLE x".toList 1000 false false).1 (by decide)
  exact absurd h1.2.1.1 (by decide)

/-- C1 (amended): only `execute_sql_query` implements the full contract
(reject unsafe input with a failure before anything reaches the
database, and route the text through `add_limit`: every query it sends
is `limitedQuery sql limit` or that text prefixed by
`EXPLAIN (FORMAT JSON, ANALYZE) `, where `limitedQuery` is
`add_safety_limits sql` for limits of 1000 or more and otherwise the
`LIMIT`-rewritten form of `add_safety_limits sql`, possibly with
` LIMIT {limit};` appended); `explain_query_plan` also rejects unsafe
input without sending, but on safe input sends the raw text without
`add_limit`; `validate_sql_syntax` never rejects — it returns a success
result and sends `EXPLAIN {sql}` (raw, no `add_limit`) whenever it can
connect, even for unsafe input; `optimize_query` never rejects and only
consults the database (with the raw text) when the input is safe. -/
theorem sql_tool_gating_amended {ρ : Type} (db : DBConn ρ) (sql : List Char)
    (limit : Nat) (ep an : Bool) :
    (is_safe_sql sql = false →
      (executeSQLQuery db sql limit ep).1.success = false ∧
      (executeSQLQuery db sql limit ep).2 = [] ∧
      (explainQueryPlan db sql an).1.success = false ∧
      (explainQueryPlan db sql an).2 = [] ∧
      (validateSQLSyntax db sql).1.success = true ∧
      (db.connect = .ok () → (validateSQLSyntax db sql).2 =
        ["EXPLAIN ".toList ++ sql]) ∧
      (optimizeQuery db sql).1.success = true ∧
      (optimizeQuery db sql).2 = []) ∧
    (is_safe_sql sql = true → db.connect = .ok () →
      (validateSQLSyntax db sql).2 = ["EXPLAIN ".toList ++ sql] ∧
      (explainQueryPlan db sql an).2 =
        [(if an then "EXPLAIN (FORMAT JSON, VERBOSE, BUFFERS, ANALYZE) "
          else "EXPLAIN (FORMAT JSON, VERBOSE, BUFFERS) ").toList ++ sql] ∧
      (optimizeQuery db sql).2 = ["EXPLAIN (FORMAT JSON) ".toList ++ sql]) ∧
    (∀ q ∈ (executeSQLQuery db sql limit ep).2,
      q = limitedQuery sql limit ∨
      q = "EXPLAIN (FORMAT JSON, ANALYZE) ".toList ++ limitedQuery sql limit) ∧
    (1000 ≤ limit → limitedQuery sql limit = add_safety_limits sql) ∧
    (limit < 1000 →
      limitedQuery sql limit = rewriteLimits limit (add_safety_limits sql) ∨
      limitedQuery sql limit =
        rstripSemis (rewriteLimits limit (add_safety_limits sql)) ++
          " LIMIT ".toList ++ natDigits limit ++ [';']) := by
  refine ⟨?_, ?_, ?_, ?_, ?_⟩
  · intro h
    refine ⟨?_, ?_, ?_, ?_, ?_, ?_, ?_, ?_⟩
    · simp [executeSQLQuery, h, MToolResult.bad]
    · simp [executeSQLQuery, h]
    · simp [explainQueryPlan, h, MToolResult.bad]
    · simp [explainQueryPlan, h]
    · unfold validateSQLSyntax
      cases hc : db.connect <;> simp [MToolResult.good]
    · intro hc
      simp [validateSQLSyntax, hc]
    · unfold optimizeQuery
      cases hc : db.connect <;> simp [h, MToolResult.good]
    · unfold optimizeQuery
      cases hc : db.connect <;> simp [h]
  · intro h hc
    refine ⟨by simp [validateSQLSyntax, hc], ?_, by simp [optimizeQuery, hc, h]⟩
    unfold explainQueryPlan
    have hcond : ¬ ¬ (is_safe_sql sql = true) := by simp [h]
    rw [if_neg hcond, hc]
    cases hv : db.fetchval ((if an = true then "EXPLAIN (FORMAT JSON, VERBOSE, BUFFERS, ANALYZE) "
        else "EXPLAIN (FORMAT JSON, VERBOSE, BUFFERS) ").data ++ sql) <;> simp [hv]
  · intro q hq
    by_cases hs : is_safe_sql sql = true
    · unfold executeSQLQuery at hq
      rw [if_neg (by simp [hs])] at hq
      cases hck : db.connect with
      | error e => rw [hck] at hq; simp at hq
      | ok u =>
        rw [hck] at hq
        cases hf : db.fetch (limitedQuery sql limit) with
        | error e =>
          rw [hf] at hq
          simp only [List.mem_singleton] at hq
          exact Or.inl hq
        | ok rows =>
          rw [hf] at hq
          dsimp only at hq
          split at hq
          · simp only [List.mem_cons, List.not_mem_nil, or_false] at hq
            exact hq
          · simp only [List.mem_singleton] at hq
            exact Or.inl hq
    · unfold executeSQLQuery at hq
      rw [if_pos (by simp [hs])] at hq
      simp at hq
  · intro hlim
    unfold limitedQuery
    rw [if_neg (by omega)]
  · intro hlim
    by_cases hcl : containsLimitSub (rewriteLimits limit (add_safety_limits sql)) = true
    · left
      unfold limitedQuery
      rw [if_pos hlim]
      dsimp only
      rw [if_neg (by simp [hcl])]
    · right
      unfold limitedQuery
      rw [if_pos hlim]
      dsimp only
      rw [if_pos (by simp [Bool.not_eq_true] at hcl ⊢; exact hcl)]

/-- Witness for C1 (amended) on the always-available oracle: the unsafe
input `DROP TABLE x`, the safe input `SELECT 1`, and the routing of the
texts sent by `execute_sql_query` — with limit 800 both sent texts,
with limit 1000 the `add_limit` pass-through. -/
theorem sql_tool_gating_amended_witness :
    (executeSQLQuery dbAllOk "DROP TABLE x".toList 1000 false).1.success = false ∧
    (validateSQLSyntax dbAllOk "DROP TABLE x".toList).1.success = true ∧
    (validateSQLSyntax dbAllOk "DROP TABLE x".toList).2 =
      ["EXPLAIN DROP TABLE x".toList] ∧
    (explainQueryPlan dbAllOk "SELECT 1".toList false).2 =
      ["EXPLAIN (FORMAT JSON, VERBOSE, BUFFERS) SELECT 1".toList] ∧
    ("SELECT 1 LIMIT 800;".toList = limitedQuery "SELECT 1".toList 800 ∨
      "SELECT 1 LIMIT 800;".toList =
        "EXPLAIN (FORMAT JSON, ANALYZE) ".toList ++ limitedQuery "SELECT 1".toList 800) ∧
    ("EXPLAIN (FORMAT JSON, ANALYZE) SELECT 1 LIMIT 800;".toList =
        limitedQuery "SELECT 1".toList 800 ∨
      "EXPLAIN (FORMAT JSON, ANALYZE) SELECT 1 LIMIT 800;".toList =
        "EXPLAIN (FORMAT JSON, ANALYZE) ".toList ++ limitedQuery "SELECT 1".toList 800) ∧
    limitedQuery "SELECT 1".toList 1000 = add_safety_limits "SELECT 1".toList ∧
    (limitedQuery "SELECT 1".toList 800 =
        rewriteLimits 800 (add_safety_limits "SELECT 1".toList) ∨
      limitedQuery "SELECT 1".toList 800 =
        rstripSemis (rewriteLimits 800 (add_safety_limits "SELECT 1".toList)) ++
          " LIMIT ".toList ++ natDigits 800 ++ [';']) := by
  have hu := sql_tool_gating_amended dbAllOk "DROP TABLE x".toList 1000 false false
  have hs := sql_tool_gating_amended dbAllOk "SELECT 1".toList 1000 false false
  have hm := sql_tool_gating_amended dbAllOk "SELECT 1".toList 800 true false
  have hu1 := hu.1 (by decide)
  have hs1 := hs.2.1 (by decide) rfl
  refine ⟨hu1.1, hu1.2.2.2.2.1, ?_, ?_,
    hm.2.2.1 "SELECT 1 LIMIT 800;".toList (by decide),
    hm.2.2.1 "EXPLAIN (FORMAT JSON, ANALYZE) SELECT 1 LIMIT 800;".toList (by decide),
    hs.2.2.2.1 (by decide), hm.2.2.2.2 (by decide)⟩
  · rw [hu1.2.2.2.2.2.1 rfl]
    decide
  · rw [hs1.2.1]
    decide

/-! ### C10: the custom-limit rewrite -/

theorem digitChar_isDigit (n : Nat) : (digitChar n).isDigit = true := by
  unfold digitChar
  split <;> decide

theorem digitChar_toUpper_ne (n : Nat) : (digitChar n).toUpper ≠ 'L' := by
  unfold digitChar
  split <;> decide

theorem natDigitsAux_props (fuel : Nat) :
    ∀ n, ∀ c ∈ natDigitsAux fuel n, c.isDigit = true ∧ c.toUpper ≠ 'L' := by
  induction fuel with
  | zero => intro n c hc; exact absurd hc (List.not_mem_nil c)
  | succ fuel ih =>
    intro n c hc
    unfold natDigitsAux at hc
    by_cases h : n < 10
    · rw [if_pos h] at hc
      simp only [List.mem_singleton] at hc
      exact hc ▸ ⟨digitChar_isDigit n, digitChar_toUpper_ne n⟩
    · rw [if_neg h] at hc
      rcases List.mem_append.mp hc with h1 | h1
      · exact ih (n / 10) c h1
      · simp only [List.mem_singleton] at h1
        exact h1 ▸ ⟨digitChar_isDigit _, digitChar_toUpper_ne _⟩

theorem natDigits_props (n : Nat) :
    ∀ c ∈ natDigits n, c.isDigit = true ∧ c.toUpper ≠ 'L' :=
  natDigitsAux_props (n + 1) n

theorem natDigits_ne_nil (n : Nat) : natDigits n ≠ [] := by
  unfold natDigits natDigitsAux
  by_cases h : n < 10
  · simp [h]
  · rw [if_neg h]
    simp

theorem matchLimit_some {s ds rest : List Char}
    (h : matchLimit s = some (ds, rest)) :
    upperL (s.take 6) = limitTok ∧
    ds = (s.drop 6).takeWhile Char.isDigit ∧
    rest = (s.drop 6).dropWhile Char.isDigit ∧ ds ≠ [] := by
  unfold matchLimit at h
  by_cases hc : upperL (s.take 6) = limitTok
  · rw [if_pos hc] at h
    by_cases he : ((s.drop 6).takeWhile Char.isDigit).isEmpty = true
    · rw [if_pos he] at h
      exact absurd h (by simp)
    · rw [if_neg he] at h
      simp only [Option.some.injEq, Prod.mk.injEq] at h
      refine ⟨hc, h.1.symm, h.2.symm, ?_⟩
      rw [h.1] at he
      simpa [List.isEmpty_iff] using he
  · rw [if_neg hc] at h
    exact absurd h (by simp)

theorem matchLimit_some_length {s ds rest : List Char}
    (h : matchLimit s = some (ds, rest)) : rest.length < s.length := by
  obtain ⟨hc, hds, hrest, hne⟩ := matchLimit_some h
  have hs6 : 6 ≤ s.length := by
    have h0 := congrArg List.length hc
    have h1 : limitTok.length = 6 := rfl
    rw [h1] at h0
    simp only [upperL, List.length_map, List.length_take] at h0
    omega
  have hsplit : ds.length + rest.length = (s.drop 6).length := by
    rw [hds, hrest, ← List.length_append, List.takeWhile_append_dropWhile]
  rw [List.length_drop] at hsplit
  have hdpos : 0 < ds.length := List.length_pos.mpr hne
  omega

theorem matchLimit_none_of_head {c : Char} (hc : c.toUpper ≠ 'L')
    (X : List Char) : matchLimit (c :: X) = none := by
  unfold matchLimit
  rw [if_neg]
  intro h
  have : (upperL ((c :: X).take 6)).head? = limitTok.head? := by rw [h]
  simp only [List.take_succ_cons, upperL, List.map_cons, List.head?_cons] at this
  exact hc (by simpa [limitTok] using this)

theorem takeWhile_append_all {p : Char → Bool} {l : List Char}
    (h : ∀ c ∈ l, p c = true) (X : List Char) :
    (l ++ X).takeWhile p = l ++ X.takeWhile p := by
  induction l with
  | nil => rfl
  | cons a t ih =>
    have ha : p a = true := h a (List.mem_cons_self _ _)
    simp only [List.cons_append, List.takeWhile_cons, ha, if_true]
    rw [ih (fun c hc => h c (List.mem_cons_of_mem _ hc))]

theorem dropWhile_append_all {p : Char → Bool} {l : List Char}
    (h : ∀ c ∈ l, p c = true) (X : List Char) :
    (l ++ X).dropWhile p = X.dropWhile p := by
  induction l with
  | nil => rfl
  | cons a t ih =>
    have ha : p a = true := h a (List.mem_cons_self _ _)
    simp only [List.cons_append, List.dropWhile_cons, ha, if_true]
    exact ih (fun c hc => h c (List.mem_cons_of_mem _ hc))

theorem takeWhile_nil_of_head {p : Char → Bool} {X : List Char}
    (h : ∀ c, X.head? = some c → p c = false) : X.takeWhile p = [] := by
  cases X with
  | nil => rfl
  | cons a t =>
    have := h a rfl
    simp [List.takeWhile_cons, this]

theorem dropWhile_self_of_head {p : Char → Bool} {X : List Char}
    (h : ∀ c, X.head? = some c → p c = false) : X.dropWhile p = X := by
  cases X with
  | nil => rfl
  | cons a t =>
    have := h a rfl
    simp [List.dropWhile_cons, this]

theorem takeWhile_eq_nil_head {p : Char → Bool} {l : List Char}
    (h : l.takeWhile p = []) : ∀ c, l.head? = some c → p c = false := by
  intro c hc
  cases l with
  | nil => simp at hc
  | cons a t =>
    simp only [List.head?_cons, Option.some.injEq] at hc
    rw [← hc]
    by_contra hp
    have hp' : p a = true := by
      cases hpc : p a with
      | true => rfl
      | false => exact absurd hpc hp
    simp [List.takeWhile_cons, hp'] at h

/-- Matching at the head of an inserted replacement: the window is the
token itself, the digit run is exactly the rendered limit, and the scan
continues at `X`. -/
theorem matchLimit_insert (m : Nat) {X : List Char}
    (hX : ∀ c, X.head? = some c → c.isDigit = false) :
    matchLimit (limitTok ++ natDigits m ++ X) = some (natDigits m, X) := by
  have htok : limitTok.length = 6 := rfl
  have htake : (limitTok ++ natDigits m ++ X).take 6 = limitTok := by
    rw [List.append_assoc, ← htok, List.take_left]
  have hdrop : (limitTok ++ natDigits m ++ X).drop 6 = natDigits m ++ X := by
    rw [List.append_assoc, ← htok, List.drop_left]
  have hdig : ∀ c ∈ natDigits m, Char.isDigit c = true :=
    fun c hc => (natDigits_props m c hc).1
  unfold matchLimit
  rw [htake, hdrop, if_pos (by decide)]
  rw [takeWhile_append_all hdig, takeWhile_nil_of_head hX, List.append_nil,
    dropWhile_append_all hdig, dropWhile_self_of_head hX]
  rw [if_neg (by simp [List.isEmpty_iff, natDigits_ne_nil m])]

theorem rewriteLimitsAux_congr (m : Nat) :
    ∀ f f' (s : List Char), s.length ≤ f → s.length ≤ f' →
      rewriteLimitsAux m f s = rewriteLimitsAux m f' s := by
  intro f
  induction f with
  | zero =>
    intro f' s hf hf'
    have : s = [] := List.eq_nil_of_length_eq_zero (by omega)
    subst this
    cases f' with
    | zero => rfl
    | succ f' =>
      have hnone : matchLimit ([] : List Char) = none := by decide
      simp [rewriteLimitsAux, hnone]
  | succ f ih =>
    intro f' s hf hf'
    cases f' with
    | zero =>
      have : s = [] := List.eq_nil_of_length_eq_zero (by omega)
      subst this
      have hnone : matchLimit ([] : List Char) = none := by decide
      simp [rewriteLimitsAux, hnone]
    | succ f' =>
      cases hm : matchLimit s with
      | some p =>
        obtain ⟨ds, rest⟩ := p
        have hlen := matchLimit_some_length hm
        simp only [rewriteLimitsAux, hm]
        rw [ih f' rest (by omega) (by omega)]
      | none =>
        cases s with
        | nil => simp [rewriteLimitsAux, hm]
        | cons c t =>
          simp only [rewriteLimitsAux, hm, List.length_cons] at hf hf' ⊢
          rw [ih f' t (by omega) (by omega)]

theorem rewriteLimits_nil (m : Nat) : rewriteLimits m [] = [] := rfl

theorem rewriteLimits_eq_insert (m : Nat) {s ds rest : List Char}
    (h : matchLimit s = some (ds, rest)) :
    rewriteLimits m s = limitTok ++ natDigits m ++ rewriteLimits m rest := by
  have hlen := matchLimit_some_length h
  unfold rewriteLimits
  obtain ⟨n, hn⟩ : ∃ n, s.length = n + 1 := ⟨s.length - 1, by omega⟩
  rw [hn]
  simp only [rewriteLimitsAux, h]
  rw [rewriteLimitsAux_congr m n rest.length rest (by omega) (Nat.le_refl _)]

theorem rewriteLimits_cons_none (m : Nat) {c : Char} {t : List Char}
    (h : matchLimit (c :: t) = none) :
    rewriteLimits m (c :: t) = c :: rewriteLimits m t := by
  unfold rewriteLimits
  simp only [List.length_cons, rewriteLimitsAux, h]

theorem rewriteLimitsAux_head (m : Nat) (f : Nat) (s : List Char)
    (h : ∀ c, s.head? = some c → c.isDigit = false) :
    ∀ c, (rewriteLimitsAux m f s).head? = some c → c.isDigit = false := by
  cases f with
  | zero => exact h
  | succ f =>
    cases hm : matchLimit s with
    | some p =>
      obtain ⟨ds, rest⟩ := p
      simp only [rewriteLimitsAux, hm]
      intro c hc
      have : c = 'L' := by
        have hL : (limitTok ++ natDigits m ++ rewriteLimitsAux m f rest).head? = some 'L' := rfl
        rw [hL] at hc
        simpa using hc.symm
      subst this
      decide
    | none =>
      cases s with
      | nil => simp [rewriteLimitsAux, hm]
      | cons a t =>
        simp only [rewriteLimitsAux, hm]
        intro c hc
        simp only [List.head?_cons, Option.some.injEq] at hc
        exact hc ▸ h a rfl

theorem rewriteLimits_head (m : Nat) (s : List Char)
    (h : ∀ c, s.head? = some c → c.isDigit = false) :
    ∀ c, (rewriteLimits m s).head? = some c → c.isDigit = false :=
  rewriteLimitsAux_head m s.length s h

theorem rewriteLimitsAux_take_upper (m : Nat) :
    ∀ f (s : List Char) (k : Nat), k ≤ 6 →
      upperL ((rewriteLimitsAux m f s).take k) = upperL (s.take k) := by
  intro f
  induction f with
  | zero => intro s k _; rfl
  | succ f ih =>
    intro s k hk
    cases hm : matchLimit s with
    | some p =>
      obtain ⟨ds, rest⟩ := p
      obtain ⟨hwin, hds, hrest, hne⟩ := matchLimit_some hm
      simp only [rewriteLimitsAux, hm]
      have h1 : (limitTok ++ natDigits m ++ rewriteLimitsAux m f rest).take k
          = limitTok.take k := by
        rw [List.append_assoc]
        exact List.take_append_of_le_length (by simpa [limitTok] using hk)
      rw [h1]
      have h2 : s.take k = (s.take 6).take k := by
        rw [List.take_take]
        congr 1
        omega
      rw [h2]
      have h3 : upperL ((s.take 6).take k) = (upperL (s.take 6)).take k := by
        simp [upperL, List.map_take]
      rw [h3, hwin]
      have h4 : upperL (limitTok.take k) = (upperL limitTok).take k := by
        simp [upperL, List.map_take]
      rw [h4]
      have h5 : upperL limitTok = limitTok := by decide
      rw [h5]
    | none =>
      cases s with
      | nil => simp [rewriteLimitsAux, hm]
      | cons c t =>
        simp only [rewriteLimitsAux, hm]
        cases k with
        | zero => rfl
        | succ k =>
          simp only [List.take_succ_cons, upperL, List.map_cons]
          have := ih t k (by omega)
          simp only [upperL] at this
          rw [this]

theorem rewriteLimits_take_upper (m : Nat) (s : List Char) (k : Nat)
    (hk : k ≤ 6) :
    upperL ((rewriteLimits m s).take k) = upperL (s.take k) :=
  rewriteLimitsAux_take_upper m s.length s k hk

theorem rewriteLimitsAux_copy (m : Nat) :
    ∀ (s₁ : List Char) (f : Nat) (s₂ : List Char),
      (∀ c ∈ s₁, c.toUpper ≠ 'L') →
      rewriteLimitsAux m (s₁.length + f) (s₁ ++ s₂) =
        s₁ ++ rewriteLimitsAux m f s₂ := by
  intro s₁
  induction s₁ with
  | nil => intro f s₂ _; simp
  | cons c t ih =>
    intro f s₂ h
    have hnone : matchLimit (c :: (t ++ s₂)) = none :=
      matchLimit_none_of_head (h c (List.mem_cons_self _ _)) _
    have hstep : (c :: t).length + f = (t.length + f) + 1 := by
      simp [List.length_cons]
      omega
    rw [List.cons_append, hstep]
    simp only [rewriteLimitsAux, hnone]
    rw [ih f s₂ (fun d hd => h d (List.mem_cons_of_mem _ hd))]
    simp

theorem head_dropWhile {p : Char → Bool} :
    ∀ {l : List Char} {c : Char}, (l.dropWhile p).head? = some c → p c = false := by
  intro l
  induction l with
  | nil => intro c hc; simp at hc
  | cons a t ih =>
    intro c hc
    by_cases ha : p a = true
    · rw [List.dropWhile_cons, if_pos ha] at hc
      exact ih hc
    · rw [List.dropWhile_cons, if_neg ha] at hc
      simp only [List.head?_cons, Option.some.injEq] at hc
      rw [← hc]
      cases hpa : p a with
      | true => exact absurd hpa ha
      | false => rfl

theorem hasBadLimit_cons_eq (m : Nat) (c : Char) (X : List Char) :
    hasBadLimit m (c :: X) =
      ((match matchLimit (c :: X) with
        | some (ds, _) => decide (ds ≠ natDigits m)
        | none => false) || hasBadLimit m X) := rfl

theorem hasBadLimit_copy (m : Nat) :
    ∀ (s₁ s₂ : List Char), (∀ c ∈ s₁, c.toUpper ≠ 'L') →
      hasBadLimit m (s₁ ++ s₂) = hasBadLimit m s₂ := by
  intro s₁
  induction s₁ with
  | nil => intro s₂ _; rfl
  | cons c t ih =>
    intro s₂ h
    have hnone : matchLimit (c :: (t ++ s₂)) = none :=
      matchLimit_none_of_head (h c (List.mem_cons_self _ _)) _
    rw [List.cons_append, hasBadLimit_cons_eq, hnone]
    simp only [Bool.false_or]
    exact ih s₂ (fun d hd => h d (List.mem_cons_of_mem _ hd))

theorem mem_IMIT_not_L {c : Char} (h : c.toUpper ∈ "IMIT ".toList) :
    c.toUpper ≠ 'L' := by
  intro hL
  rw [hL] at h
  simp at h

theorem hasBadLimit_rewrite (m : Nat) :
    ∀ N (s : List Char), s.length ≤ N →
      hasBadLimit m (rewriteLimits m s) = false := by
  intro N
  induction N with
  | zero =>
    intro s h
    have : s = [] := List.eq_nil_of_length_eq_zero (by omega)
    subst this
    rfl
  | succ N ih =>
    intro s hlen
    cases hm : matchLimit s with
    | some p =>
      obtain ⟨ds, rest⟩ := p
      have hrlen := matchLimit_some_length hm
      obtain ⟨hwin, hds, hrest, hne⟩ := matchLimit_some hm
      rw [rewriteLimits_eq_insert m hm]
      have hresthead : ∀ c, rest.head? = some c → c.isDigit = false := by
        intro c hc
        rw [hrest] at hc
        exact head_dropWhile hc
      have hRhead := rewriteLimits_head m rest hresthead
      have hO : (limitTok ++ natDigits m) ++ rewriteLimits m rest
          = 'L' :: (("IMIT ".toList ++ natDigits m) ++ rewriteLimits m rest) := by
        simp [limitTok]
      rw [hO, hasBadLimit_cons_eq]
      have hcheck : matchLimit
          ('L' :: (("IMIT ".toList ++ natDigits m) ++ rewriteLimits m rest))
          = some (natDigits m, rewriteLimits m rest) := by
        rw [← hO]
        exact matchLimit_insert m hRhead
      rw [hcheck]
      simp only [ne_eq, not_true_eq_false, decide_False, Bool.false_or]
      rw [hasBadLimit_copy m ("IMIT ".toList ++ natDigits m) _ ?side]
      case side =>
        intro d hd
        rcases List.mem_append.mp hd with h1 | h1
        · exact mem_IMIT_not_L (List.mem_map_of_mem Char.toUpper h1)
        · exact (natDigits_props m d h1).2
      exact ih rest (by omega)
    | none =>
      cases s with
      | nil => rfl
      | cons c t =>
        rw [rewriteLimits_cons_none m hm]
        rw [hasBadLimit_cons_eq]
        have htail : hasBadLimit m (rewriteLimits m t) = false := by
          have : t.length ≤ N := by
            simp only [List.length_cons] at hlen
            omega
          exact ih t this
        suffices hnone2 : matchLimit (c :: rewriteLimits m t) = none by
          rw [hnone2, htail]
          rfl
        by_cases hwin2 : upperL ((c :: t).take 6) = limitTok
        · -- the window matched in the input, so the digit run was empty
          unfold matchLimit at hm
          rw [if_pos hwin2] at hm
          have hemp : (List.takeWhile Char.isDigit ((c :: t).drop 6)).isEmpty = true := by
            by_contra hne2
            rw [if_neg hne2] at hm
            simp at hm
          have hemp' : List.takeWhile Char.isDigit (t.drop 5) = [] := by
            have hd6 : (c :: t).drop 6 = t.drop 5 := by simp [List.drop_succ_cons]
            rw [hd6] at hemp
            simpa [List.isEmpty_iff] using hemp
          -- decompose the window equation
          have htk6 : (c :: t).take 6 = c :: t.take 5 := by simp [List.take_succ_cons]
          rw [htk6] at hwin2
          simp only [upperL, List.map_cons] at hwin2
          have hwc : c.toUpper = 'L' ∧
              List.map Char.toUpper (t.take 5) = "IMIT ".toList := by
            have : limitTok = 'L' :: "IMIT ".toList := by decide
            rw [this, List.cons.injEq] at hwin2
            exact hwin2
          have ht5 : (t.take 5).length = 5 := by
            have := congrArg List.length hwc.2
            simpa using this
          have ht5' : 5 ≤ t.length := by
            rw [List.length_take] at ht5
            omega
          -- the rewrite copies the first five characters of t verbatim
          have hcopy : rewriteLimits m t =
              t.take 5 ++ rewriteLimits m (t.drop 5) := by
            have hnotL : ∀ d ∈ t.take 5, d.toUpper ≠ 'L' := by
              intro d hd
              exact mem_IMIT_not_L (hwc.2 ▸ List.mem_map_of_mem Char.toUpper hd)
            have hsplit : t.take 5 ++ t.drop 5 = t := List.take_append_drop 5 t
            have hlen5 : t.length = (t.take 5).length + (t.drop 5).length := by
              rw [ht5, List.length_drop]
              omega
            unfold rewriteLimits
            rw [← hsplit]
            have h1 : (t.take 5 ++ t.drop 5).length =
                (t.take 5).length + (t.drop 5).length := List.length_append _ _
            rw [h1, rewriteLimitsAux_copy m (t.take 5) (t.drop 5).length (t.drop 5) hnotL]
            rw [hsplit]
          -- head of the rewritten tail is not a digit
          have hR2head : ∀ d, (rewriteLimits m (t.drop 5)).head? = some d →
              d.isDigit = false :=
            rewriteLimits_head m (t.drop 5) (takeWhile_eq_nil_head hemp')
          -- now compute the match on the rewritten text
          unfold matchLimit
          have htake : (c :: rewriteLimits m t).take 6 = c :: t.take 5 := by
            rw [List.take_succ_cons, hcopy]
            rw [List.take_append_of_le_length (by omega), List.take_take]
            simp
          have hwin3 : upperL ((c :: rewriteLimits m t).take 6) = limitTok := by
            rw [htake]
            simp only [upperL, List.map_cons]
            rw [hwc.1, hwc.2]
            decide
          rw [if_pos hwin3]
          have hdrop6 : (c :: rewriteLimits m t).drop 6 =
              rewriteLimits m (t.drop 5) := by
            rw [List.drop_succ_cons, hcopy]
            have hdl := List.drop_left (t.take 5) (rewriteLimits m (t.drop 5))
            rw [ht5] at hdl
            exact hdl
          rw [hdrop6]
          rw [takeWhile_nil_of_head hR2head]
          simp
        · -- the window did not match in the input, and the first five
          -- characters keep their uppercase form under the rewrite
          unfold matchLimit
          rw [if_neg ?winneg]
          case winneg =>
            intro habs
            apply hwin2
            have h5 : upperL ((rewriteLimits m t).take 5) = upperL (t.take 5) :=
              rewriteLimits_take_upper m t 5 (by omega)
            have htk : (c :: rewriteLimits m t).take 6 = c :: (rewriteLimits m t).take 5 := by
              simp [List.take_succ_cons]
            have htk' : (c :: t).take 6 = c :: t.take 5 := by
              simp [List.take_succ_cons]
            rw [htk] at habs
            rw [htk']
            simp only [upperL, List.map_cons] at habs ⊢
            simp only [upperL] at h5
            rw [← h5]
            exact habs

theorem startsWithSeg_refl (p : List Char) : startsWithSeg p p = true := by
  induction p with
  | nil => rfl
  | cons a t ih => simp [startsWithSeg, ih]

theorem containsSeg_append_left {p x : List Char} (y : List Char)
    (h : containsSeg p x = true) : containsSeg p (x ++ y) = true := by
  induction x with
  | nil =>
    have hp : p = [] := by
      cases p with
      | nil => rfl
      | cons a t => simp [containsSeg, startsWithSeg] at h
    subst hp
    cases y with
    | nil => rfl
    | cons b u => simp [containsSeg, startsWithSeg]
  | cons c t ih =>
    simp only [containsSeg, Bool.or_eq_true] at h
    rcases h with h | h
    · rw [List.cons_append]
      exact containsSeg_of_startsWith (by
        have := startsWithSeg_append (x := c :: t) y h
        simpa using this)
    · rw [List.cons_append]
      exact containsSeg_cons c (ih h)

theorem rstrip_decomp (r : List Char) :
    rstripSemis r ++ (r.reverse.takeWhile (fun c => c == ';')).reverse = r := by
  unfold rstripSemis
  rw [← List.reverse_append, List.takeWhile_append_dropWhile, List.reverse_reverse]

theorem matchLimit_none_boundary (m : Nat) (c : Char) (A : List Char)
    (h : containsSeg "LIMIT".toList (upperL (c :: A)) = false) :
    matchLimit ((c :: A) ++ (" LIMIT ".toList ++ natDigits m ++ [';'])) = none := by
  unfold matchLimit
  rw [if_neg]
  intro habs
  have habs5 : upperL (((c :: A) ++ (" LIMIT ".toList ++ natDigits m ++ [';'])).take 5)
      = "LIMIT".toList := by
    have h1 : ((c :: A) ++ (" LIMIT ".toList ++ natDigits m ++ [';'])).take 5
        = (((c :: A) ++ (" LIMIT ".toList ++ natDigits m ++ [';'])).take 6).take 5 := by
      rw [List.take_take]
      norm_num
    rw [h1]
    have h2 : upperL ((((c :: A) ++ (" LIMIT ".toList ++ natDigits m ++ [';'])).take 6).take 5)
        = (upperL (((c :: A) ++ (" LIMIT ".toList ++ natDigits m ++ [';'])).take 6)).take 5 := by
      simp [upperL, List.map_take]
    rw [h2, habs]
    decide
  match A with
  | [] => simp [upperL, List.take, List.cons.injEq] at habs5
  | [a] => simp [upperL, List.take, List.cons.injEq] at habs5
  | [a, b] => simp [upperL, List.take, List.cons.injEq] at habs5
  | [a, b, d] => simp [upperL, List.take, List.cons.injEq] at habs5
  | a :: b :: d :: e :: A' =>
    have hlen5 : 5 ≤ (c :: a :: b :: d :: e :: A').length := by simp
    rw [List.take_append_of_le_length hlen5] at habs5
    have hstart : startsWithSeg "LIMIT".toList
        (upperL (c :: a :: b :: d :: e :: A')) = true := by
      have hsplit : upperL (c :: a :: b :: d :: e :: A') =
          upperL ((c :: a :: b :: d :: e :: A').take 5) ++
          upperL ((c :: a :: b :: d :: e :: A').drop 5) := by
        unfold upperL
        rw [← List.map_append, List.take_append_drop]
      rw [hsplit, habs5]
      exact startsWithSeg_append _ (startsWithSeg_refl _)
    rw [containsSeg_of_startsWith hstart] at h
    exact absurd h (by simp)

theorem hasBadLimit_clean_append (m : Nat) :
    ∀ A : List Char, containsSeg "LIMIT".toList (upperL A) = false →
      hasBadLimit m (A ++ (" LIMIT ".toList ++ natDigits m ++ [';'])) = false := by
  intro A
  induction A with
  | nil =>
    intro _
    simp only [List.nil_append]
    have hshape : " LIMIT ".toList ++ natDigits m ++ [';'] =
        ' ' :: ((limitTok ++ natDigits m) ++ [';']) := by
      simp [limitTok]
    rw [hshape, hasBadLimit_cons_eq,
      matchLimit_none_of_head (by decide) _]
    simp only [Bool.false_or]
    have hsemi : ∀ d, ([';'] : List Char).head? = some d → d.isDigit = false := by
      intro d hd
      simp only [List.head?_cons, Option.some.injEq] at hd
      rw [← hd]
      decide
    have hO : (limitTok ++ natDigits m) ++ [';'] =
        'L' :: (("IMIT ".toList ++ natDigits m) ++ [';']) := by
      simp [limitTok]
    rw [hO, hasBadLimit_cons_eq]
    have hcheck : matchLimit ('L' :: (("IMIT ".toList ++ natDigits m) ++ [';']))
        = some (natDigits m, [';']) := by
      rw [← hO]
      exact matchLimit_insert m hsemi
    rw [hcheck]
    simp only [ne_eq, not_true_eq_false, decide_False, Bool.false_or]
    rw [hasBadLimit_copy m ("IMIT ".toList ++ natDigits m) _ ?notL]
    case notL =>
      intro d hd
      rcases List.mem_append.mp hd with h1 | h1
      · exact mem_IMIT_not_L (List.mem_map_of_mem Char.toUpper h1)
      · exact (natDigits_props m d h1).2
    rw [hasBadLimit_cons_eq, matchLimit_none_of_head (by decide) _]
    rfl
  | cons c A' ih =>
    intro h
    rw [List.cons_append, hasBadLimit_cons_eq]
    have hbd := matchLimit_none_boundary m c A' h
    rw [List.cons_append] at hbd
    rw [hbd]
    simp only [Bool.false_or]
    refine ih ?_
    rw [Bool.eq_false_iff]
    intro habs
    rw [Bool.eq_false_iff] at h
    refine h ?_
    unfold upperL
    rw [List.map_cons]
    exact containsSeg_cons _ (by simpa [upperL] using habs)

theorem executeSQLQuery_head {ρ : Type} (db : DBConn ρ) (sql : List Char)
    (limit : Nat) (ep : Bool) (q : List Char)
    (hq : (executeSQLQuery db sql limit ep).2.head? = some q) :
    q = limitedQuery sql limit := by
  by_cases hs : is_safe_sql sql = true
  · unfold executeSQLQuery at hq
    rw [if_neg (by simp [hs])] at hq
    cases hck : db.connect with
    | error e => rw [hck] at hq; simp at hq
    | ok u =>
      rw [hck] at hq
      cases hf : db.fetch (limitedQuery sql limit) with
      | error e =>
        rw [hf] at hq
        simpa using hq.symm
      | ok rows =>
        rw [hf] at hq
        dsimp only at hq
        split at hq <;> simpa using hq.symm
  · unfold executeSQLQuery at hq
    rw [if_pos (by simp [hs])] at hq
    simp at hq

/-- C10: with a custom limit below 1000, the query text sent to the
database contains no `LIMIT <number>` occurrence whose number differs
from the custom limit — every caller-written `LIMIT <number>`, also in
subqueries, has been rewritten case-insensitively to `LIMIT {limit}`;
with a limit of 1000 or more, text that already contains `LIMIT` is
sent exactly as the caller wrote it. -/
theorem execute_sql_query_limit_rewrite {ρ : Type} (db : DBConn ρ)
    (sql : List Char) (limit : Nat) (ep : Bool) :
    (limit < 1000 →
      ∀ q, (executeSQLQuery db sql limit ep).2.head? = some q →
        hasBadLimit limit q = false) ∧
    (1000 ≤ limit → containsLimitSub sql = true →
      ∀ q, (executeSQLQuery db sql limit ep).2.head? = some q → q = sql) := by
  constructor
  · intro hlim q hq
    rw [executeSQLQuery_head db sql limit ep q hq]
    unfold limitedQuery
    rw [if_pos hlim]
    by_cases hcl : containsLimitSub (rewriteLimits limit (add_safety_limits sql)) = true
    · rw [if_neg (by simp [hcl])]
      exact hasBadLimit_rewrite limit (add_safety_limits sql).length _ (Nat.le_refl _)
    · rw [if_pos (by simp [Bool.not_eq_true] at hcl ⊢; exact hcl)]
      have hA : containsSeg "LIMIT".toList
          (upperL (rstripSemis (rewriteLimits limit (add_safety_limits sql)))) = false := by
        rw [Bool.eq_false_iff]
        intro habs
        apply hcl
        unfold containsLimitSub
        rw [← rstrip_decomp (rewriteLimits limit (add_safety_limits sql))]
        unfold upperL
        rw [List.map_append]
        exact containsSeg_append_left _ (by simpa [upperL] using habs)
      have := hasBadLimit_clean_append limit
        (rstripSemis (rewriteLimits limit (add_safety_limits sql))) hA
      simpa [List.append_assoc] using this
  · intro hlim hsub q hq
    rw [executeSQLQuery_head db sql limit ep q hq]
    unfold limitedQuery
    rw [if_neg (by omega)]
    unfold add_safety_limits
    rw [if_pos hsub]

/-- Witness for C10: limit 50 rewrites the caller's `LIMIT 7` (and the
injected `LIMIT 1000`); limit 1000 leaves `SELECT 1 LIMIT 5` as
written. -/
theorem execute_sql_query_limit_rewrite_witness :
    hasBadLimit 50 "SELECT a FROM t LIMIT 50".toList = false ∧
    "SELECT 1 LIMIT 5".toList = "SELECT 1 LIMIT 5".toList := by
  constructor
  · exact (execute_sql_query_limit_rewrite dbAllOk "SELECT a FROM t LIMIT 7".toList
      50 false).1 (by decide) "SELECT a FROM t LIMIT 50".toList (by decide)
  · exact (execute_sql_query_limit_rewrite dbAllOk "SELECT 1 LIMIT 5".toList
      1000 false).2 (by decide) (by decide) "SELECT 1 LIMIT 5".toList (by decide)
